import Mathlib

/-!
Verification of `vak/core/learncurve/train_dur_csv_paths.py`.

We shallowly embed the two entry points of the module, `from_df` (the fresh
subset builder) and `from_dir` (the recovery importer), together with the
pieces of the Python runtime they rely on:

* pandas dataframes become lists of rows (`DataFrame`), a row carrying its
  `split` tag and an opaque payload standing for all remaining columns;
* `collections.defaultdict(list)` becomes an insertion-ordered association
  list (`DDict`) with the `d[k].append(v)` / `d[k]` / `d[k] = v` operations;
* the filesystem becomes an explicit state (`FS`): a set of existing
  directories plus a write-history of files, where `Path.mkdir()` fails if
  the directory exists and file writes silently overwrite;
* `re.findall` for the fixed pattern `train_dur_(\d+\.\d+|\d+)s` becomes a
  structural scanner over the character list (for this pattern a match can
  never start strictly inside another match, because the character `t` only
  occurs at the start of the literal `train_dur_`, so scanning every start
  position is equivalent to `re.findall`'s non-overlapping scan);
* Python's `int(...)` on the regex group becomes a digits-only parse that
  fails on strings such as `"5.0"`, exactly as `int("5.0")` raises
  `ValueError`;
* `sorted(...)` on `pathlib` paths becomes insertion sort by a computable
  lexicographic order on paths (components compared character by character);
* the two external collaborators, `vak.split.dataframe` and
  `WindowDataset.spect_vectors_from_df`, are parameters of the embedding;
  the splitter receives the replicate number as an extra oracle argument to
  model its internal randomness.

Paths are component lists (`Path := List String`); `p.joinpath(name)` is
`p ++ [name]`.
-/

deriving instance DecidableEq for Except

namespace Vak

/-- A row of a dataset table: its `split` column plus an opaque payload
standing for every other column (spectrogram path, annotation data, ...). -/
structure Row where
  split : String
  payload : String
deriving DecidableEq

/-- A pandas dataframe, as the list of its rows. -/
abbrev DataFrame := List Row

/-- The three aligned index arrays returned by
`WindowDataset.spect_vectors_from_df`: `spect_id_vector`,
`spect_inds_vector`, `x_inds`. -/
abbrev Vec3 := List Int × List Int × List Int

/-- A filesystem path, as its list of components. -/
abbrev Path := List String

/-- Contents a file can hold in the model: a csv table, a saved numpy
array, or opaque bytes. -/
inductive FileContent where
  | table (df : DataFrame)
  | arr (v : List Int)
  | blob (tag : String)
deriving DecidableEq

/-- Errors the Python code can raise: the naming-ambiguity `ValueError`,
the `ValueError` raised by `int()` on a non-integer literal, the two
shape-mismatch `ValueError`s, `FileExistsError` from `Path.mkdir()`,
`FileNotFoundError` from reading/copying a missing file, and a parse
failure of `pd.read_csv` on non-tabular bytes. -/
inductive Err where
  | naming (path : Path) (found : List String)
  | intParse (s : String)
  | durMismatch (specified found : List Nat)
  | countMismatch
  | dirExists (path : Path)
  | fileNotFound (path : Path)
  | notATable (path : Path)
deriving DecidableEq

/-! ### Character-level utilities -/

/-- Longest digit run at the head of a character list, plus the rest
(the span of `\d+`, maximal munch). -/
def takeDigits : List Char → List Char × List Char
  | [] => ([], [])
  | c :: cs =>
    if c.isDigit then
      let p := takeDigits cs
      (c :: p.1, p.2)
    else ([], c :: cs)

/-- The literal `train_dur_` of `TRAIN_DUR_PAT`, as characters. -/
def durLit : List Char := "train_dur_".toList

/-- Try to match `(\d+\.\d+|\d+)s` at the head of `cs`, returning the
captured group.  Greedy digit runs never need to backtrack before `.` or
`s` since shrinking a maximal digit run always leaves a digit at the next
position; the first alternative is preferred exactly as in `re`. -/
def numMatch (cs : List Char) : Option (List Char) :=
  match takeDigits cs with
  | ([], _) => none
  | (d1, '.' :: r2) =>
    (match takeDigits r2 with
     | ([], _) => none
     | (d2, 's' :: _) => some (d1 ++ '.' :: d2)
     | _ => none)
  | (d1, 's' :: _) => some d1
  | _ => none

/-- All matches of `re.findall(TRAIN_DUR_PAT, ·)` over a character list:
try every start position; a successful match contributes its group.  For
this pattern no match can start inside another match, so this equals the
non-overlapping left-to-right scan performed by `re.findall`. -/
def findDursCL : List Char → List String
  | [] => []
  | c :: cs =>
    (if durLit.isPrefixOf (c :: cs) then
      match numMatch ((c :: cs).drop durLit.length) with
      | some g => [String.mk g]
      | none => []
    else []) ++ findDursCL cs

/-- `re.findall(TRAIN_DUR_PAT, name)` for `TRAIN_DUR_PAT =
r'train_dur_(\d+\.\d+|\d+)s'`. -/
def findDurs (name : String) : List String := findDursCL name.toList

/-- Value of a digit list read in base 10. -/
def natOfDigits (cs : List Char) : Nat :=
  cs.foldl (fun a c => a * 10 + (c.toNat - 48)) 0

/-- Python's `int(s)` restricted to the strings the regex group can
produce (nonempty, digits possibly with a `.`): succeeds on all-digit
strings, raises `ValueError` otherwise — in particular `int("5.0")`
raises. -/
def pyInt (s : String) : Option Nat :=
  if s.toList ≠ [] ∧ s.toList.all Char.isDigit then some (natOfDigits s.toList)
  else none

/-- Does a file name match the glob `*prep*csv` (pattern `CSV_GLOB =
'**/*prep*csv'` applied to the name component): the name ends in `csv`
and contains `prep` before that suffix. -/
def globMatch (name : String) : Bool :=
  let cs := name.toList
  "csv".toList.isSuffixOf cs && containsSeq "prep".toList (cs.take (cs.length - 3))
where
  /-- Does `needle` occur as a contiguous subsequence of `hay`? -/
  containsSeq (needle : List Char) : List Char → Bool
    | [] => needle.isPrefixOf []
    | c :: cs => needle.isPrefixOf (c :: cs) || containsSeq needle cs

/-! ### Path ordering (pathlib `sorted`) -/

/-- Sort key of a path: its components as character lists, compared by
the lexicographic order on lists of character lists. -/
def pathKey (p : Path) : List (List Char) := p.map String.toList

/-- The path order `sorted(...)` uses: lexicographic by components,
components compared character by character. -/
def pathLe (p q : Path) : Prop := pathKey p ≤ pathKey q

instance : DecidableRel pathLe :=
  fun p q => inferInstanceAs (Decidable (pathKey p ≤ pathKey q))

/-- `sorted(...)` over paths. -/
def sortPaths (l : List Path) : List Path := l.insertionSort pathLe

instance : IsTotal Path pathLe := ⟨fun p q => le_total (pathKey p) (pathKey q)⟩

instance : IsTrans Path pathLe := ⟨fun _ _ _ hab hbc => le_trans hab hbc⟩

instance : IsAntisymm Path pathLe :=
  ⟨fun p q hpq hqp => by
    have hinj : Function.Injective String.toList := by
      intro a b h
      cases a with
      | mk da =>
        cases b with
        | mk db => exact congrArg String.mk (by simpa [String.toList] using h)
    exact List.map_injective_iff.mpr hinj (le_antisymm hpq hqp)⟩

/-- `sorted(...)` over the integer durations. -/
def sortNat (l : List Nat) : List Nat :=
  l.insertionSort (fun a b => a ≤ b)

/-! ### defaultdict(list) -/

/-- `collections.defaultdict(list)` with integer keys and path-list
values, as an insertion-ordered association list. -/
structure DDict where
  entries : List (Nat × List Path)
deriving DecidableEq

namespace DDict

/-- The empty defaultdict. -/
def empty : DDict := ⟨[]⟩

/-- `d.keys()`, in insertion order. -/
def keys (m : DDict) : List Nat := m.entries.map Prod.fst

/-- The value stored under `k`, if present. -/
def find? (m : DDict) (k : Nat) : Option (List Path) :=
  (m.entries.find? (fun e => decide (e.1 = k))).map Prod.snd

/-- `d[k].append(v)`: extend the existing list in place, or insert the
key at the end with a fresh singleton list. -/
def getAppend (m : DDict) (k : Nat) (v : Path) : DDict :=
  if (m.find? k).isSome then
    ⟨m.entries.map (fun e => if e.1 = k then (e.1, e.2 ++ [v]) else e)⟩
  else ⟨m.entries ++ [(k, [v])]⟩

/-- `d[k]` on a defaultdict: return the stored list, or return `[]` after
silently inserting the missing key with an empty list as value. -/
def getItem (m : DDict) (k : Nat) : List Path × DDict :=
  match m.find? k with
  | some v => (v, m)
  | none => ([], ⟨m.entries ++ [(k, [])]⟩)

end DDict

/-! ### Filesystem state -/

/-- Filesystem state: the set of existing directories and the history of
file writes (most recent first; a read returns the most recent write). -/
structure FS where
  dirs : List Path
  files : List (Path × FileContent)
deriving DecidableEq

namespace FS

/-- `Path.mkdir()`: raises `FileExistsError` when the directory already
exists, otherwise records it. -/
def mkdir (fs : FS) (p : Path) : Except Err FS :=
  if p ∈ fs.dirs then .error (.dirExists p) else .ok ⟨p :: fs.dirs, fs.files⟩

/-- A file write (`np.save`, `DataFrame.to_csv`, the byte copy performed
by `shutil.copy`): silently overwrites. -/
def write (fs : FS) (p : Path) (c : FileContent) : FS :=
  ⟨fs.dirs, (p, c) :: fs.files⟩

/-- Read the current content of a file, `none` when it does not exist. -/
def read (fs : FS) (p : Path) : Option FileContent :=
  (fs.files.find? (fun e => decide (e.1 = p))).map Prod.snd

end FS

/-! ### Shared naming and the external collaborators -/

/-- `f'train_dur_{d}s'`, the per-duration directory name. -/
def durDirName (d : Nat) : String := "train_dur_" ++ Nat.repr d ++ "s"

/-- `f'replicate_{r}'`, the per-replicate directory name. -/
def repDirName (r : Nat) : String := "replicate_" ++ Nat.repr r

/-- The fixed basenames of the three saved index arrays. -/
def vecNames : List String := ["spect_id_vector", "spect_inds_vector", "x_inds"]

/-- `df[df['split'] == tag]` row predicate. -/
def isSplit (tag : String) (r : Row) : Bool := r.split == tag

/-- Type of the external stratified splitter `vak.split.dataframe`,
taking the train dataframe and the target duration.  The extra `Nat`
argument is the replicate number, an oracle index modelling the
splitter's internal randomness (the Python call passes no such argument;
quantifying over this function covers every possible random draw). -/
abbrev SplitFn := DataFrame → Nat → Nat → DataFrame

/-- Type of the external window-index builder
`WindowDataset.spect_vectors_from_df`, taking the dataframe and
`crop_dur` (the other arguments — window size, keys, timebin duration,
labelmap — are fixed per run and folded into the function). -/
abbrev SvfFn := DataFrame → Nat → Vec3

/-- The three `np.save` calls writing `spect_id_vector.npy`,
`spect_inds_vector.npy` and `x_inds.npy` into a replicate directory. -/
def saveVecs (repDir : Path) (v : Vec3) (fs : FS) : FS :=
  ((fs.write (repDir ++ ["spect_id_vector.npy"]) (.arr v.1)).write
    (repDir ++ ["spect_inds_vector.npy"]) (.arr v.2.1)).write
    (repDir ++ ["x_inds.npy"]) (.arr v.2.2)

/-! ### from_df (fresh subset builder) -/

/-- Observation record for one `(duration, replicate)` iteration of
`from_df`: the inputs handed to the collaborators and the table written. -/
structure DfCall where
  train_dur : Nat
  replicate : Nat
  splitIn : DataFrame
  subset : DataFrame
  written : DataFrame
  csvPath : Path
deriving DecidableEq

/-- Inner loop of `from_df` over the replicate numbers
`range(1, num_replicates + 1)` for one training-set duration. -/
def fromDfReps (splitFn : SplitFn) (svf : SvfFn) (dataset_df : DataFrame)
    (stem : String) (d : Nat) (durDir : Path) (m : DDict) (fs : FS) :
    List Nat → FS × Except Err (DDict × List DfCall)
  | [] => (fs, .ok (m, []))
  | r :: rs =>
    let repDir := durDir ++ [repDirName r]
    match fs.mkdir repDir with
    | .error e => (fs, .error e)
    | .ok fs1 =>
      -- train_df = dataset_df[dataset_df['split'] == 'train']
      let train_df := dataset_df.filter (isSplit "train")
      -- subset_df = split.dataframe(train_df, train_dur, labelset);
      -- subset_df = subset_df[subset_df['split'] == 'train']
      let subset := (splitFn train_df d r).filter (isSplit "train")
      -- WindowDataset.spect_vectors_from_df(subset_df, ..., crop_dur=train_dur, ...)
      let v := svf subset d
      let fs2 := saveVecs repDir v fs1
      -- subset_df = pd.concat((subset_df, val rows, test rows))
      let written := subset ++ dataset_df.filter (isSplit "val")
        ++ dataset_df.filter (isSplit "test")
      let csvPath := repDir ++ [stem ++ "_train_dur_" ++ Nat.repr d
        ++ "s_replicate_" ++ Nat.repr r ++ ".csv"]
      let fs3 := fs2.write csvPath (.table written)
      match fromDfReps splitFn svf dataset_df stem d durDir
          (m.getAppend d csvPath) fs3 rs with
      | (fs4, .error e) => (fs4, .error e)
      | (fs4, .ok (m4, calls)) =>
        (fs4, .ok (m4, ⟨d, r, train_df, subset, written, csvPath⟩ :: calls))

/-- Outer loop of `from_df` over the requested durations. -/
def fromDfDurs (splitFn : SplitFn) (svf : SvfFn) (dataset_df : DataFrame)
    (stem : String) (reps : Nat) (results : Path) (m : DDict) (fs : FS) :
    List Nat → FS × Except Err (DDict × List DfCall)
  | [] => (fs, .ok (m, []))
  | d :: ds =>
    let durDir := results ++ [durDirName d]
    match fs.mkdir durDir with
    | .error e => (fs, .error e)
    | .ok fs1 =>
      match fromDfReps splitFn svf dataset_df stem d durDir m fs1
          (List.range' 1 reps) with
      | (fs2, .error e) => (fs2, .error e)
      | (fs2, .ok (m2, calls1)) =>
        match fromDfDurs splitFn svf dataset_df stem reps results m2 fs2 ds with
        | (fs3, .error e) => (fs3, .error e)
        | (fs3, .ok (m3, calls2)) => (fs3, .ok (m3, calls1 ++ calls2))

/-- `from_df(dataset_df, csv_path, train_set_durs, ..., num_replicates,
results_path, ...)`.  Returns the filesystem state reached (also when an
exception propagates) and, on success, the result mapping plus the log of
per-iteration observations. -/
def from_df (splitFn : SplitFn) (svf : SvfFn) (dataset_df : DataFrame)
    (stem : String) (train_set_durs : List Nat) (num_replicates : Nat)
    (results_path : Path) (fs0 : FS) :
    FS × Except Err (DDict × List DfCall) :=
  fromDfDurs splitFn svf dataset_df stem num_replicates results_path
    DDict.empty fs0 train_set_durs

/-! ### from_dir (recovery importer) -/

/-- `Path.name`: the final path component. -/
def baseName (p : Path) : String := p.getLastD ""

/-- `sorted(previous_run_path.glob(CSV_GLOB))`: keep the files whose name
matches `*prep*csv`, in sorted order.  `prevFiles` is the directory tree
of the previous run, listed in arbitrary filesystem enumeration order. -/
def scanPrev (prevFiles : List Path) : List Path :=
  sortPaths (prevFiles.filter (fun p => globMatch (baseName p)))

/-- Grouping loop of `from_dir`: per file, `re.findall` the duration
pattern on the name, require exactly one match, `int(...)` it and append
the path under that duration. -/
def groupByDur (m : DDict) : List Path → Except Err DDict
  | [] => .ok m
  | p :: ps =>
    match findDurs (baseName p) with
    | [s] =>
      match pyInt s with
      | some t => groupByDur (m.getAppend t p) ps
      | none => .error (.intParse s)
    | ms => .error (.naming p ms)

/-- Observation record for one `(duration, replicate)` iteration of
`from_dir`'s copy loop. -/
structure DirCall where
  train_dur : Nat
  replicate : Nat
  srcCsv : Path
  newCsv : Path
  repDir : Path
  table : DataFrame
  recomputed : Vec3
deriving DecidableEq

/-- `for vec_name in ('spect_id_vector', 'spect_inds_vector', 'x_inds'):
shutil.copy(csv_path.parent / f'{vec_name}.npy', replicate_dir / ...)`. -/
def copyLegacy (srcDir repDir : Path) (fs : FS) :
    List String → FS × Except Err Unit
  | [] => (fs, .ok ())
  | n :: ns =>
    let sp := srcDir ++ [n ++ ".npy"]
    match fs.read sp with
    | none => (fs, .error (.fileNotFound sp))
    | some c => copyLegacy srcDir repDir (fs.write (repDir ++ [n ++ ".npy"]) c) ns

/-- One `(replicate_num, csv_path)` iteration of `from_dir`'s copy loop:
make the replicate directory, copy the source table, re-read it,
recompute and save the three arrays, then copy the three legacy arrays
that sit beside the source table (same destination filenames). -/
def processReplicate (svf : SvfFn) (d : Nat) (durDir : Path) (fs0 : FS)
    (r : Nat) (src : Path) : FS × Except Err (Path × DirCall) :=
  let repDir := durDir ++ [repDirName r]
  match fs0.mkdir repDir with
  | .error e => (fs0, .error e)
  | .ok fs1 =>
    match fs1.read src with
    | none => (fs1, .error (.fileNotFound src))
    | some c =>
      let newCsv := repDir ++ [baseName src]
      let fs2 := fs1.write newCsv c
      match c with
      | .table df =>
        -- subset_df = pd.read_csv(csv_path); vectors recomputed from it
        let v := svf df d
        let fs3 := saveVecs repDir v fs2
        match copyLegacy src.dropLast repDir fs3 vecNames with
        | (fs4, .error e) => (fs4, .error e)
        | (fs4, .ok _) => (fs4, .ok (newCsv, ⟨d, r, src, newCsv, repDir, df, v⟩))
      | _ => (fs2, .error (.notATable src))

/-- Inner loop of `from_dir` over
`zip(range(1, len(csv_paths) + 1), csv_paths)`. -/
def processDurPairs (svf : SvfFn) (d : Nat) (durDir : Path) (fs : FS) :
    List (Nat × Path) → FS × Except Err (List Path × List DirCall)
  | [] => (fs, .ok ([], []))
  | (r, src) :: rest =>
    match processReplicate svf d durDir fs r src with
    | (fs1, .error e) => (fs1, .error e)
    | (fs1, .ok (p, c)) =>
      match processDurPairs svf d durDir fs1 rest with
      | (fs2, .error e) => (fs2, .error e)
      | (fs2, .ok (ps, cs)) => (fs2, .ok (p :: ps, c :: cs))

/-- One duration of `from_dir`'s copy loop: make the duration directory
and process its replicates. -/
def processDur (svf : SvfFn) (results : Path) (fs : FS) (d : Nat)
    (srcs : List Path) : FS × Except Err (List Path × List DirCall) :=
  let durDir := results ++ [durDirName d]
  match fs.mkdir durDir with
  | .error e => (fs, .error e)
  | .ok fs1 => processDurPairs svf d durDir fs1 ((List.range' 1 srcs.length).zip srcs)

/-- Copy loop of `from_dir` over the grouped manifest, replacing each
entry's value with the list of copied paths. -/
def copyPhase (svf : SvfFn) (results : Path) (fs : FS) :
    List (Nat × List Path) → FS × Except Err (List (Nat × List Path) × List DirCall)
  | [] => (fs, .ok ([], []))
  | (d, srcs) :: rest =>
    match processDur svf results fs d srcs with
    | (fs1, .error e) => (fs1, .error e)
    | (fs1, .ok (ps, cs)) =>
      match copyPhase svf results fs1 rest with
      | (fs2, .error e) => (fs2, .error e)
      | (fs2, .ok (es, cs2)) => (fs2, .ok ((d, ps) :: es, cs ++ cs2))

/-- `from_dir(previous_run_path, train_set_durs, ..., num_replicates,
results_path, ...)`: scan and sort, group by parsed duration, validate
the duration set and the per-duration counts, then copy everything into
the fresh results tree.  Returns the filesystem state reached (also when
an exception propagates) and, on success, the result mapping plus the
log of per-iteration observations. -/
def from_dir (svf : SvfFn) (prevFiles : List Path) (train_set_durs : List Nat)
    (num_replicates : Nat) (results_path : Path) (fs0 : FS) :
    FS × Except Err (DDict × List DirCall) :=
  match groupByDur DDict.empty (scanPrev prevFiles) with
  | .error e => (fs0, .error e)
  | .ok g =>
    if sortNat g.keys ≠ sortNat train_set_durs then
      (fs0, .error (.durMismatch (sortNat train_set_durs) (sortNat g.keys)))
    else if ¬ (g.entries.all fun e => e.2.length == num_replicates) then
      (fs0, .error .countMismatch)
    else
      match copyPhase svf results_path fs0 g.entries with
      | (fs, .error e) => (fs, .error e)
      | (fs, .ok (entries, log)) => (fs, .ok (⟨entries⟩, log))

/-! ### Concrete instances used in witnesses and counterexamples -/

/-- A window-index builder stub used for concrete runs. -/
def svfK : SvfFn := fun _ _ => ([1], [2], [3])

/-- A splitter stub used for concrete runs: returns its input unchanged. -/
def splitId : SplitFn := fun df _ _ => df

/-- A three-row table, one row per split. -/
def tblK : DataFrame := [⟨"train", "a"⟩, ⟨"val", "b"⟩, ⟨"test", "c"⟩]

/-- The empty filesystem. -/
def fsEmpty : FS := ⟨[], []⟩

/-- The four table files of claim C4, named exactly as in the claim. -/
def c4Files : List Path :=
  [["prev", "foo_train_dur_5.0s_r1.csv"], ["prev", "foo_train_dur_5.0s_r2.csv"],
   ["prev", "foo_train_dur_10s_r1.csv"], ["prev", "foo_train_dur_10s_r2.csv"]]

/-- The same four files renamed to contain `prep`, so that the scan glob
`**/*prep*csv` actually discovers them. -/
def c4PrepFiles : List Path :=
  [["prev", "foo_prep_train_dur_5.0s_r1.csv"],
   ["prev", "foo_prep_train_dur_5.0s_r2.csv"],
   ["prev", "foo_prep_train_dur_10s_r1.csv"],
   ["prev", "foo_prep_train_dur_10s_r2.csv"]]

/-- A previous-run filesystem holding one valid subset table and its
three sibling legacy array files (contents distinct from anything the
stub builder `svfK` recomputes). -/
def fsPrev : FS := ⟨[],
  [(["prev", "data_prep_train_dur_5s_r1.csv"], .table tblK),
   (["prev", "spect_id_vector.npy"], .blob "legacy_sid"),
   (["prev", "spect_inds_vector.npy"], .blob "legacy_si"),
   (["prev", "x_inds.npy"], .blob "legacy_x")]⟩

/-- The file tree of that previous run. -/
def prevFilesK : List Path :=
  [["prev", "data_prep_train_dur_5s_r1.csv"], ["prev", "spect_id_vector.npy"],
   ["prev", "spect_inds_vector.npy"], ["prev", "x_inds.npy"]]

/-- The table path `from_dir` produces for `fsPrev` with duration 5,
replicate 1. -/
def c5NewCsv : Path :=
  ["res", "train_dur_5s", "replicate_1", "data_prep_train_dur_5s_r1.csv"]

/-- The replicate directory of that run. -/
def c5RepDir : Path := ["res", "train_dur_5s", "replicate_1"]

/-- The copy-loop observation record of that run. -/
def c5Rec : DirCall :=
  ⟨5, 1, ["prev", "data_prep_train_dur_5s_r1.csv"], c5NewCsv, c5RepDir, tblK,
    ([1], [2], [3])⟩

/-- The mapping returned by that run. -/
def c5M : DDict := ⟨[(5, [c5NewCsv])]⟩

/-- The filesystem state after that run. -/
def c5Fs : FS := (from_dir svfK prevFilesK [5] 1 ["res"] fsPrev).1

/-- The table path the concrete `from_df` run below writes. -/
def dfCsvK : Path :=
  ["res", "train_dur_5s", "replicate_1", "data_train_dur_5s_replicate_1.csv"]

/-- The observation record of that concrete `from_df` run. -/
def dfCallK : DfCall := ⟨5, 1, [⟨"train", "a"⟩], [⟨"train", "a"⟩], tblK, dfCsvK⟩

/-- The mapping returned by that run. -/
def dfMK : DDict := ⟨[(5, [dfCsvK])]⟩

/-- The filesystem state after that run. -/
def dfFsK : FS := (from_df splitId svfK tblK "data" [5] 1 ["res"] fsEmpty).1

/-- A single file whose name holds two duration patterns but no `prep`
(the file of claim C7, which the scan glob does not discover). -/
def c7File : Path := ["prev", "weird_train_dur_5s_train_dur_10s.csv"]

/-- The same file renamed to contain `prep`, so the glob discovers it. -/
def c7PrepFile : Path := ["prev", "weird_prep_train_dur_5s_train_dur_10s.csv"]

/-! ## Helper lemmas: association lists and defaultdicts -/

theorem findEntry_isSome_iff_mem (l : List (Nat × List Path)) (k : Nat) :
    (l.find? (fun e => decide (e.1 = k))).isSome ↔ k ∈ l.map Prod.fst := by
  induction l with
  | nil => simp
  | cons e es ih =>
    rw [List.find?_cons, List.map_cons, List.mem_cons]
    by_cases h : e.1 = k
    · simp [h]
    · have hd : decide (e.1 = k) = false := by simp [h]
      rw [hd]
      constructor
      · intro hs
        exact Or.inr (ih.mp hs)
      · intro hm
        rcases hm with hm | hm
        · exact absurd hm.symm h
        · exact ih.mpr hm

namespace DDict

theorem find?_isSome_iff_mem (m : DDict) (k : Nat) :
    (m.find? k).isSome ↔ k ∈ m.keys := by
  rw [find?, keys, Option.isSome_map']
  exact findEntry_isSome_iff_mem m.entries k

theorem find?_eq_none_of_not_mem {m : DDict} {k : Nat} (h : k ∉ m.keys) :
    m.find? k = none := by
  have := (find?_isSome_iff_mem m k).not.mpr h
  cases hf : m.find? k with
  | none => rfl
  | some v => exact absurd (by rw [hf]; rfl) this

theorem getItem_of_not_mem {m : DDict} {k : Nat} (h : k ∉ m.keys) :
    m.getItem k = ([], ⟨m.entries ++ [(k, [])]⟩) := by
  rw [getItem, find?_eq_none_of_not_mem h]

theorem getAppend_keys (m : DDict) (k : Nat) (v : Path) :
    (m.getAppend k v).keys = if k ∈ m.keys then m.keys else m.keys ++ [k] := by
  rw [getAppend]
  by_cases h : k ∈ m.keys
  · rw [if_pos ((find?_isSome_iff_mem m k).mpr h), if_pos h]
    show (m.entries.map _).map Prod.fst = m.keys
    rw [List.map_map, keys]
    refine List.map_congr_left ?_
    intro e _
    by_cases he : e.1 = k <;> simp [he]
  · rw [if_neg (fun hs => h ((find?_isSome_iff_mem m k).mp hs)), if_neg h]
    show (m.entries ++ [(k, [v])]).map Prod.fst = m.keys ++ [k]
    simp [keys]

theorem getAppend_find?_ne (m : DDict) {k k' : Nat} (v : Path) (h : k' ≠ k) :
    (m.getAppend k v).find? k' = m.find? k' := by
  rw [getAppend]
  by_cases hs : (m.find? k).isSome
  · rw [if_pos hs]
    show ((m.entries.map _).find? _).map Prod.snd = _
    rw [find?, List.find?_map]
    have hp : ((fun e : Nat × List Path => decide (e.1 = k')) ∘
        fun e => if e.1 = k then (e.1, e.2 ++ [v]) else e) =
        fun e : Nat × List Path => decide (e.1 = k') := by
      funext e
      by_cases he : e.1 = k <;> simp [he]
    rw [hp]
    cases hf : m.entries.find? (fun e => decide (e.1 = k')) with
    | none => rfl
    | some e =>
      have he' : e.1 = k' := by simpa using List.find?_some hf
      have hek : ¬ e.1 = k := by rw [he']; exact h
      simp [hek]
  · rw [if_neg hs]
    show ((m.entries ++ [(k, [v])]).find? _).map Prod.snd = _
    rw [find?, List.find?_append]
    cases hf : m.entries.find? (fun e => decide (e.1 = k')) with
    | some w => rfl
    | none => simp [List.find?_cons, Ne.symm h]

theorem getAppend_find?_self (m : DDict) (k : Nat) (v : Path) :
    (m.getAppend k v).find? k = some (((m.find? k).getD []) ++ [v]) := by
  rw [getAppend]
  by_cases hs : (m.find? k).isSome
  · rw [if_pos hs]
    show ((m.entries.map _).find? _).map Prod.snd = _
    rw [find?, List.find?_map]
    have hp : ((fun e : Nat × List Path => decide (e.1 = k)) ∘
        fun e => if e.1 = k then (e.1, e.2 ++ [v]) else e) =
        fun e : Nat × List Path => decide (e.1 = k) := by
      funext e
      by_cases he : e.1 = k <;> simp [he]
    rw [hp]
    rw [find?] at hs
    cases hf : m.entries.find? (fun e => decide (e.1 = k)) with
    | none => rw [hf] at hs; simp at hs
    | some e =>
      have he : e.1 = k := by simpa using List.find?_some hf
      simp [he]
  · rw [if_neg hs]
    rw [find?] at hs
    show ((m.entries ++ [(k, [v])]).find? _).map Prod.snd = _
    rw [find?, List.find?_append]
    cases hf : m.entries.find? (fun e => decide (e.1 = k)) with
    | none => simp [List.find?_cons]
    | some e => rw [hf] at hs; simp at hs

end DDict

/-! ## Helper lemmas: sorting -/

theorem mem_sortNat {k : Nat} {l : List Nat} : k ∈ sortNat l ↔ k ∈ l :=
  (List.perm_insertionSort _ l).mem_iff

theorem mem_sortPaths {p : Path} {l : List Path} : p ∈ sortPaths l ↔ p ∈ l :=
  (List.perm_insertionSort _ l).mem_iff

theorem sortPaths_eq_of_perm {l₁ l₂ : List Path} (h : l₁.Perm l₂) :
    sortPaths l₁ = sortPaths l₂ := by
  refine @List.eq_of_perm_of_sorted Path pathLe _ _ _ ?_ ?_ ?_
  · exact ((List.perm_insertionSort pathLe l₁).trans h).trans
      (List.perm_insertionSort pathLe l₂).symm
  · exact List.sorted_insertionSort pathLe l₁
  · exact List.sorted_insertionSort pathLe l₂

theorem scanPrev_eq_of_perm {l₁ l₂ : List Path} (h : l₁.Perm l₂) :
    scanPrev l₁ = scanPrev l₂ :=
  sortPaths_eq_of_perm (h.filter _)

/-! ## Helper lemmas: filesystem -/

theorem FS.mkdir_ok {fs fs' : FS} {p : Path} (h : fs.mkdir p = .ok fs') :
    p ∉ fs.dirs ∧ fs' = ⟨p :: fs.dirs, fs.files⟩ := by
  rw [FS.mkdir] at h
  by_cases hp : p ∈ fs.dirs
  · rw [if_pos hp] at h
    exact absurd h (by simp)
  · rw [if_neg hp] at h
    injection h with h
    exact ⟨hp, h.symm⟩

theorem FS.write_dirs (fs : FS) (p : Path) (c : FileContent) :
    (fs.write p c).dirs = fs.dirs := rfl

theorem saveVecs_dirs (repDir : Path) (v : Vec3) (fs : FS) :
    (saveVecs repDir v fs).dirs = fs.dirs := rfl

/-! ## Helper lemmas: the from_df loops -/

theorem fromDfReps_ok_dirs (splitFn : SplitFn) (svf : SvfFn) (df : DataFrame)
    (stem : String) (d : Nat) (durDir : Path) :
    ∀ (rs : List Nat) (m : DDict) (fs fs' : FS) (m' : DDict) (calls : List DfCall),
      fromDfReps splitFn svf df stem d durDir m fs rs = (fs', .ok (m', calls)) →
      fs.dirs ⊆ fs'.dirs := by
  intro rs
  induction rs with
  | nil =>
    intro m fs fs' m' calls h
    rw [fromDfReps] at h
    simp only [Prod.mk.injEq] at h
    obtain ⟨rfl, -⟩ := h
    exact fun x hx => hx
  | cons r rs ih =>
    intro m fs fs' m' calls h
    rw [fromDfReps] at h
    split at h
    · simp at h
    · next fs1 hm =>
      dsimp only [] at h
      split at h
      · simp at h
      · next fs4 m4 calls0 hrec =>
        simp only [Prod.mk.injEq] at h
        obtain ⟨rfl, -⟩ := h
        have hsub := ih _ _ _ _ _ hrec
        have hd := (FS.mkdir_ok hm).2
        intro x hx
        apply hsub
        show x ∈ fs1.dirs
        rw [hd]
        exact List.mem_cons_of_mem _ hx

theorem fromDfReps_ok_fresh (splitFn : SplitFn) (svf : SvfFn) (df : DataFrame)
    (stem : String) (d : Nat) (durDir : Path) :
    ∀ (rs : List Nat) (m : DDict) (fs fs' : FS) (m' : DDict) (calls : List DfCall),
      fromDfReps splitFn svf df stem d durDir m fs rs = (fs', .ok (m', calls)) →
      ∀ r ∈ rs, durDir ++ [repDirName r] ∉ fs.dirs := by
  intro rs
  induction rs with
  | nil =>
    intro m fs fs' m' calls h r hr
    simp at hr
  | cons r rs ih =>
    intro m fs fs' m' calls h r' hr'
    rw [fromDfReps] at h
    split at h
    · simp at h
    · next fs1 hm =>
      dsimp only [] at h
      split at h
      · simp at h
      · next fs4 m4 calls0 hrec =>
        rcases List.mem_cons.mp hr' with rfl | hr'
        · exact (FS.mkdir_ok hm).1
        · have hnot := ih _ _ _ _ _ hrec r' hr'
          intro hx
          apply hnot
          show _ ∈ ((saveVecs _ _ fs1).write _ _).dirs
          rw [FS.write_dirs, saveVecs_dirs, (FS.mkdir_ok hm).2]
          exact List.mem_cons_of_mem _ hx

theorem fromDfReps_ok_find? (splitFn : SplitFn) (svf : SvfFn) (df : DataFrame)
    (stem : String) (d : Nat) (durDir : Path) :
    ∀ (rs : List Nat) (m : DDict) (fs fs' : FS) (m' : DDict) (calls : List DfCall),
      fromDfReps splitFn svf df stem d durDir m fs rs = (fs', .ok (m', calls)) →
      (∀ k, k ≠ d → m'.find? k = m.find? k) ∧
      (rs = [] → m' = m) ∧
      (rs ≠ [] → ∃ ps, ps.length = rs.length ∧
        m'.find? d = some (((m.find? d).getD []) ++ ps)) := by
  intro rs
  induction rs with
  | nil =>
    intro m fs fs' m' calls h
    rw [fromDfReps] at h
    simp only [Prod.mk.injEq, Except.ok.injEq] at h
    obtain ⟨-, rfl, -⟩ := h
    exact ⟨fun _ _ => rfl, fun _ => rfl, fun hne => absurd rfl hne⟩
  | cons r rs ih =>
    intro m fs fs' m' calls h
    rw [fromDfReps] at h
    split at h
    · simp at h
    · next fs1 hm =>
      dsimp only [] at h
      split at h
      · simp at h
      · next fs4 m4 calls0 hrec =>
        simp only [Prod.mk.injEq, Except.ok.injEq] at h
        obtain ⟨-, rfl, -⟩ := h
        obtain ⟨ihne, ihnil, ihcons⟩ := ih _ _ _ _ _ hrec
        refine ⟨?_, ?_, ?_⟩
        · intro k hk
          rw [ihne k hk, DDict.getAppend_find?_ne _ _ hk]
        · intro hne
          exact absurd hne (List.cons_ne_nil r rs)
        · intro _
          cases rs with
          | nil =>
            refine ⟨[durDir ++ [repDirName r] ++ [stem ++ "_train_dur_" ++ d.repr
              ++ "s_replicate_" ++ r.repr ++ ".csv"]], rfl, ?_⟩
            rw [ihnil rfl, DDict.getAppend_find?_self]
          | cons r2 rs2 =>
            obtain ⟨ps, hlen, hfind⟩ := ihcons (List.cons_ne_nil r2 rs2)
            refine ⟨(durDir ++ [repDirName r] ++ [stem ++ "_train_dur_" ++ d.repr
              ++ "s_replicate_" ++ r.repr ++ ".csv"]) :: ps, by simp [hlen], ?_⟩
            rw [hfind, DDict.getAppend_find?_self]
            simp

theorem fromDfReps_ok_calls (splitFn : SplitFn) (svf : SvfFn) (df : DataFrame)
    (stem : String) (d : Nat) (durDir : Path) :
    ∀ (rs : List Nat) (m : DDict) (fs fs' : FS) (m' : DDict) (calls : List DfCall),
      fromDfReps splitFn svf df stem d durDir m fs rs = (fs', .ok (m', calls)) →
      ∀ c ∈ calls, c.train_dur = d ∧
        c.splitIn = df.filter (isSplit "train") ∧
        c.subset = (splitFn c.splitIn c.train_dur c.replicate).filter (isSplit "train") ∧
        c.written = c.subset ++ df.filter (isSplit "val") ++ df.filter (isSplit "test") := by
  intro rs
  induction rs with
  | nil =>
    intro m fs fs' m' calls h c hc
    rw [fromDfReps] at h
    simp only [Prod.mk.injEq, Except.ok.injEq] at h
    obtain ⟨-, -, rfl⟩ := h
    simp at hc
  | cons r rs ih =>
    intro m fs fs' m' calls h c hc
    rw [fromDfReps] at h
    split at h
    · simp at h
    · next fs1 hm =>
      dsimp only [] at h
      split at h
      · simp at h
      · next fs4 m4 calls0 hrec =>
        simp only [Prod.mk.injEq, Except.ok.injEq] at h
        obtain ⟨-, -, rfl⟩ := h
        rcases List.mem_cons.mp hc with rfl | hc
        · exact ⟨rfl, rfl, rfl, by simp [List.append_assoc]⟩
        · exact ih _ _ _ _ _ hrec c hc

theorem fromDfDurs_ok_dirs (splitFn : SplitFn) (svf : SvfFn) (df : DataFrame)
    (stem : String) (reps : Nat) (results : Path) :
    ∀ (ds : List Nat) (m : DDict) (fs fs' : FS) (m' : DDict) (calls : List DfCall),
      fromDfDurs splitFn svf df stem reps results m fs ds = (fs', .ok (m', calls)) →
      fs.dirs ⊆ fs'.dirs := by
  intro ds
  induction ds with
  | nil =>
    intro m fs fs' m' calls h
    rw [fromDfDurs] at h
    simp only [Prod.mk.injEq] at h
    obtain ⟨rfl, -⟩ := h
    exact fun x hx => hx
  | cons d ds ih =>
    intro m fs fs' m' calls h
    rw [fromDfDurs] at h
    split at h
    · simp at h
    · next fs1 hm =>
      split at h
      · simp at h
      · next fs2 m2 calls1 hrep =>
        split at h
        · simp at h
        · next fs3 m3 calls2 hrec =>
          simp only [Prod.mk.injEq] at h
          obtain ⟨rfl, -⟩ := h
          intro x hx
          refine ih _ _ _ _ _ hrec
            (fromDfReps_ok_dirs _ _ _ _ _ _ _ _ _ _ _ _ hrep ?_)
          rw [(FS.mkdir_ok hm).2]
          exact List.mem_cons_of_mem _ hx

theorem fromDfDurs_ok_fresh (splitFn : SplitFn) (svf : SvfFn) (df : DataFrame)
    (stem : String) (reps : Nat) (results : Path) :
    ∀ (ds : List Nat) (m : DDict) (fs fs' : FS) (m' : DDict) (calls : List DfCall),
      fromDfDurs splitFn svf df stem reps results m fs ds = (fs', .ok (m', calls)) →
      ∀ d ∈ ds, (results ++ [durDirName d] ∉ fs.dirs) ∧
        (∀ r ∈ List.range' 1 reps,
          results ++ [durDirName d, repDirName r] ∉ fs.dirs) := by
  intro ds
  induction ds with
  | nil =>
    intro m fs fs' m' calls h d hd
    simp at hd
  | cons d ds ih =>
    intro m fs fs' m' calls h d' hd'
    rw [fromDfDurs] at h
    split at h
    · simp at h
    · next fs1 hm =>
      split at h
      · simp at h
      · next fs2 m2 calls1 hrep =>
        split at h
        · simp at h
        · next fs3 m3 calls2 hrec =>
          rcases List.mem_cons.mp hd' with rfl | hd'
          · refine ⟨(FS.mkdir_ok hm).1, ?_⟩
            intro r hr hx
            have hnot := fromDfReps_ok_fresh _ _ _ _ _ _ _ _ _ _ _ _ hrep r hr
            apply hnot
            rw [(FS.mkdir_ok hm).2]
            have : results ++ [durDirName d', repDirName r] =
                (results ++ [durDirName d']) ++ [repDirName r] := by
              simp
            rw [← this]
            exact List.mem_cons_of_mem _ hx
          · have hnot := ih _ _ _ _ _ hrec d' hd'
            have hsub : fs.dirs ⊆ fs2.dirs := by
              intro x hx
              refine fromDfReps_ok_dirs _ _ _ _ _ _ _ _ _ _ _ _ hrep ?_
              rw [(FS.mkdir_ok hm).2]
              exact List.mem_cons_of_mem _ hx
            exact ⟨fun hx => hnot.1 (hsub hx), fun r hr hx => hnot.2 r hr (hsub hx)⟩

theorem fromDfDurs_ok_nodup (splitFn : SplitFn) (svf : SvfFn) (df : DataFrame)
    (stem : String) (reps : Nat) (results : Path) :
    ∀ (ds : List Nat) (m : DDict) (fs fs' : FS) (m' : DDict) (calls : List DfCall),
      fromDfDurs splitFn svf df stem reps results m fs ds = (fs', .ok (m', calls)) →
      ds.Nodup := by
  intro ds
  induction ds with
  | nil => intro m fs fs' m' calls h; exact List.nodup_nil
  | cons d ds ih =>
    intro m fs fs' m' calls h
    rw [fromDfDurs] at h
    split at h
    · simp at h
    · next fs1 hm =>
      split at h
      · simp at h
      · next fs2 m2 calls1 hrep =>
        split at h
        · simp at h
        · next fs3 m3 calls2 hrec =>
          refine List.Nodup.cons ?_ (ih _ _ _ _ _ hrec)
          intro hmem
          have hnot := (fromDfDurs_ok_fresh _ _ _ _ _ _ _ _ _ _ _ _ hrec d hmem).1
          apply hnot
          refine fromDfReps_ok_dirs _ _ _ _ _ _ _ _ _ _ _ _ hrep ?_
          rw [(FS.mkdir_ok hm).2]
          exact List.mem_cons_self _ _

theorem fromDfDurs_ok_find? (splitFn : SplitFn) (svf : SvfFn) (df : DataFrame)
    (stem : String) (reps : Nat) (results : Path) :
    ∀ (ds : List Nat) (m : DDict) (fs fs' : FS) (m' : DDict) (calls : List DfCall),
      fromDfDurs splitFn svf df stem reps results m fs ds = (fs', .ok (m', calls)) →
      ds.Nodup → (∀ x ∈ ds, x ∉ m.keys) →
      (∀ k, k ∉ ds → m'.find? k = m.find? k) ∧
      (∀ k ∈ ds, 1 ≤ reps → ∃ ps, ps.length = reps ∧ m'.find? k = some ps) := by
  intro ds
  induction ds with
  | nil =>
    intro m fs fs' m' calls h hnd hpre
    rw [fromDfDurs] at h
    simp only [Prod.mk.injEq, Except.ok.injEq] at h
    obtain ⟨-, rfl, -⟩ := h
    exact ⟨fun _ _ => rfl, fun k hk => absurd hk (List.not_mem_nil k)⟩
  | cons d ds ih =>
    intro m fs fs' m' calls h hnd hpre
    rw [fromDfDurs] at h
    split at h
    · simp at h
    · next fs1 hm =>
      split at h
      · simp at h
      · next fs2 m2 calls1 hrep =>
        split at h
        · simp at h
        · next fs3 m3 calls2 hrec =>
          simp only [Prod.mk.injEq, Except.ok.injEq] at h
          obtain ⟨-, rfl, -⟩ := h
          have hdnotin : d ∉ ds := (List.nodup_cons.mp hnd).1
          have hndtail : ds.Nodup := (List.nodup_cons.mp hnd).2
          obtain ⟨rne, rnil, rcons⟩ := fromDfReps_ok_find? _ _ _ _ _ _ _ _ _ _ _ _ hrep
          have hm2keys : ∀ x, x ≠ d → (x ∈ m2.keys ↔ x ∈ m.keys) := by
            intro x hx
            rw [← DDict.find?_isSome_iff_mem, ← DDict.find?_isSome_iff_mem, rne x hx]
          have hpretail : ∀ x ∈ ds, x ∉ m2.keys := by
            intro x hx
            have hxd : x ≠ d := fun he => hdnotin (he ▸ hx)
            rw [hm2keys x hxd]
            exact hpre x (List.mem_cons_of_mem _ hx)
          obtain ⟨ine, imem⟩ := ih _ _ _ _ _ hrec hndtail hpretail
          constructor
          · intro k hk
            have hkd : k ≠ d := fun he => hk (he ▸ List.mem_cons_self d ds)
            have hkds : k ∉ ds := fun hin => hk (List.mem_cons_of_mem _ hin)
            rw [ine k hkds, rne k hkd]
          · intro k hk hreps
            rcases List.mem_cons.mp hk with rfl | hk
            · have hne : List.range' 1 reps ≠ [] := by
                intro he
                have hl : reps = 0 := by simpa using congrArg List.length he
                omega
              obtain ⟨ps, hlen, hfind⟩ := rcons hne
              have hfd : m.find? k = none :=
                DDict.find?_eq_none_of_not_mem (hpre k (List.mem_cons_self _ _))
              refine ⟨ps, by rw [hlen, List.length_range'], ?_⟩
              rw [ine k hdnotin, hfind, hfd]
              simp
            · exact imem k hk hreps

theorem fromDfDurs_reps_zero (splitFn : SplitFn) (svf : SvfFn) (df : DataFrame)
    (stem : String) (results : Path) :
    ∀ (ds : List Nat) (m : DDict) (fs fs' : FS) (m' : DDict) (calls : List DfCall),
      fromDfDurs splitFn svf df stem 0 results m fs ds = (fs', .ok (m', calls)) →
      m' = m := by
  intro ds
  induction ds with
  | nil =>
    intro m fs fs' m' calls h
    rw [fromDfDurs] at h
    simp only [Prod.mk.injEq, Except.ok.injEq] at h
    exact h.2.1.symm
  | cons d ds ih =>
    intro m fs fs' m' calls h
    rw [fromDfDurs] at h
    split at h
    · simp at h
    · next fs1 hm =>
      split at h
      · simp at h
      · next fs2 m2 calls1 hrep =>
        split at h
        · simp at h
        · next fs3 m3 calls2 hrec =>
          simp only [Prod.mk.injEq, Except.ok.injEq] at h
          obtain ⟨-, rfl, -⟩ := h
          have h2 : m2 = m :=
            (fromDfReps_ok_find? _ _ _ _ _ _ _ _ _ _ _ _ hrep).2.1 rfl
          rw [ih _ _ _ _ _ hrec, h2]

theorem append_singleton_inj {α : Type} {p q : List α} {a b : α}
    (h : p ++ [a] = q ++ [b]) : p = q ∧ a = b := by
  rw [← List.concat_eq_append, ← List.concat_eq_append] at h
  exact List.concat_inj.mp h

theorem append_last_ne {α : Type} (p : List α) {a b : α} (h : a ≠ b) :
    p ++ [a] ≠ p ++ [b] :=
  fun he => h (by simpa using List.append_cancel_left he)

theorem FS.read_write_self (fs : FS) (p : Path) (c : FileContent) :
    (fs.write p c).read p = some c := by
  simp [FS.read, FS.write, List.find?_cons]

theorem FS.read_write_ne (fs : FS) {p q : Path} (c : FileContent) (h : q ≠ p) :
    (fs.write q c).read p = fs.read p := by
  simp [FS.read, FS.write, List.find?_cons, h]

theorem FS.read_files_eq {fs fs' : FS} (p : Path) (h : fs.files = fs'.files) :
    fs.read p = fs'.read p := by
  rw [FS.read, FS.read, h]

theorem fromDfDurs_ok_calls (splitFn : SplitFn) (svf : SvfFn) (df : DataFrame)
    (stem : String) (reps : Nat) (results : Path) :
    ∀ (ds : List Nat) (m : DDict) (fs fs' : FS) (m' : DDict) (calls : List DfCall),
      fromDfDurs splitFn svf df stem reps results m fs ds = (fs', .ok (m', calls)) →
      ∀ c ∈ calls,
        c.splitIn = df.filter (isSplit "train") ∧
        c.subset = (splitFn c.splitIn c.train_dur c.replicate).filter (isSplit "train") ∧
        c.written = c.subset ++ df.filter (isSplit "val") ++ df.filter (isSplit "test") := by
  intro ds
  induction ds with
  | nil =>
    intro m fs fs' m' calls h c hc
    rw [fromDfDurs] at h
    simp only [Prod.mk.injEq, Except.ok.injEq] at h
    obtain ⟨-, -, rfl⟩ := h
    simp at hc
  | cons d ds ih =>
    intro m fs fs' m' calls h c hc
    rw [fromDfDurs] at h
    split at h
    · simp at h
    · next fs1 hm =>
      split at h
      · simp at h
      · next fs2 m2 calls1 hrep =>
        split at h
        · simp at h
        · next fs3 m3 calls2 hrec =>
          simp only [Prod.mk.injEq, Except.ok.injEq] at h
          obtain ⟨-, -, rfl⟩ := h
          rcases List.mem_append.mp hc with hc | hc
          · have := fromDfReps_ok_calls _ _ _ _ _ _ _ _ _ _ _ _ hrep c hc
            exact ⟨this.2.1, this.2.2.1, this.2.2.2⟩
          · exact ih _ _ _ _ _ hrec c hc

/-! ## Helper lemmas: the from_dir copy loop -/

theorem processReplicate_ok_inv {svf : SvfFn} {d : Nat} {durDir : Path} {fs0 : FS}
    {r : Nat} {src : Path} {fs' : FS} {pth : Path} {c : DirCall}
    (h : processReplicate svf d durDir fs0 r src = (fs', .ok (pth, c))) :
    c.srcCsv = src ∧ c.repDir = durDir ++ [repDirName r] ∧ c.replicate = r ∧
    c.train_dur = d ∧ pth = durDir ++ [repDirName r] ++ [baseName src] ∧
    durDir ++ [repDirName r] ∉ fs0.dirs ∧
    fs'.dirs = (durDir ++ [repDirName r]) :: fs0.dirs ∧
    (∀ q : Path, (∀ n, q ≠ durDir ++ [repDirName r] ++ [n]) →
      fs'.read q = fs0.read q) ∧
    (src.dropLast ≠ durDir ++ [repDirName r] →
      ∀ n ∈ vecNames, fs'.read (durDir ++ [repDirName r] ++ [n ++ ".npy"])
        = fs0.read (src.dropLast ++ [n ++ ".npy"])) := by
  rw [processReplicate] at h
  dsimp only [] at h
  split at h
  · simp at h
  · next fs1 hm =>
    have hd1 : fs1.dirs = (durDir ++ [repDirName r]) :: fs0.dirs := by
      rw [(FS.mkdir_ok hm).2]
    have hf1 : fs1.files = fs0.files := by
      rw [(FS.mkdir_ok hm).2]
    split at h
    · simp at h
    · next c0 hread =>
      split at h
      · next df =>
        simp only [vecNames, copyLegacy] at h
        split at h
        · simp at h
        · next fs4 u hr0 =>
          split at hr0
          · simp at hr0
          · next c1 hr1 =>
            split at hr0
            · simp at hr0
            · next c2 hr2 =>
              split at hr0
              · simp at hr0
              · next c3 hr3 =>
                simp only [Prod.mk.injEq, Except.ok.injEq] at hr0 h
                obtain ⟨hfs4, -⟩ := hr0
                obtain ⟨hfs, hpth, hc⟩ := h
                subst hfs4
                subst hfs
                subst hpth
                subst hc
                refine ⟨rfl, rfl, rfl, rfl, rfl, (FS.mkdir_ok hm).1, ?_, ?_, ?_⟩
                · simp only [FS.write_dirs, saveVecs_dirs, hd1]
                · intro q hq
                  rw [FS.read_write_ne _ _ (Ne.symm (hq _)),
                    FS.read_write_ne _ _ (Ne.symm (hq _)),
                    FS.read_write_ne _ _ (Ne.symm (hq _)), saveVecs,
                    FS.read_write_ne _ _ (Ne.symm (hq _)),
                    FS.read_write_ne _ _ (Ne.symm (hq _)),
                    FS.read_write_ne _ _ (Ne.symm (hq _)),
                    FS.read_write_ne _ _ (Ne.symm (hq _))]
                  exact FS.read_files_eq q hf1
                · intro hdne n hn
                  have hsne : ∀ (x y : String),
                      src.dropLast ++ [x] ≠ durDir ++ [repDirName r] ++ [y] :=
                    fun x y he => hdne (append_singleton_inj he).1
                  have hs0 : ∀ x : String,
                      ((saveVecs (durDir ++ [repDirName r])
                          (svf df d) (fs1.write (durDir ++ [repDirName r]
                            ++ [baseName src]) (.table df))).read
                        (src.dropLast ++ [x]))
                      = fs0.read (src.dropLast ++ [x]) := by
                    intro x
                    rw [saveVecs, FS.read_write_ne _ _ (Ne.symm (hsne _ _)),
                      FS.read_write_ne _ _ (Ne.symm (hsne _ _)),
                      FS.read_write_ne _ _ (Ne.symm (hsne _ _)),
                      FS.read_write_ne _ _ (Ne.symm (hsne _ _))]
                    exact FS.read_files_eq _ hf1
                  simp only [vecNames, List.mem_cons, List.not_mem_nil, or_false] at hn
                  rcases hn with rfl | rfl | rfl
                  · rw [FS.read_write_ne _ _ (append_last_ne _ (by decide)),
                      FS.read_write_ne _ _ (append_last_ne _ (by decide)),
                      FS.read_write_self]
                    rw [hs0] at hr1
                    exact hr1.symm
                  · rw [FS.read_write_ne _ _ (append_last_ne _ (by decide)),
                      FS.read_write_self]
                    rw [FS.read_write_ne _ _ (Ne.symm (hsne _ _)), hs0] at hr2
                    exact hr2.symm
                  · rw [FS.read_write_self]
                    rw [FS.read_write_ne _ _ (Ne.symm (hsne _ _)),
                      FS.read_write_ne _ _ (Ne.symm (hsne _ _)), hs0] at hr3
                    exact hr3.symm
      · next hne0 =>
        simp at h

theorem processDurPairs_ok_inv (svf : SvfFn) (d : Nat) (durDir : Path) :
    ∀ (pairs : List (Nat × Path)) (fs fs' : FS) (ps : List Path)
      (log : List DirCall),
      processDurPairs svf d durDir fs pairs = (fs', .ok (ps, log)) →
      fs.dirs ⊆ fs'.dirs ∧
      ps.length = pairs.length ∧
      (∀ rp ∈ pairs, durDir ++ [repDirName rp.1] ∉ fs.dirs) ∧
      (∀ q : Path, fs'.read q ≠ fs.read q →
        ∃ a n, q = (durDir ++ [a]) ++ [n] ∧ durDir ++ [a] ∉ fs.dirs) ∧
      ((∀ src ∈ pairs.map Prod.snd, ∀ a : String, src.dropLast ≠ durDir ++ [a]) →
        ∀ rec ∈ log, rec.train_dur = d ∧
        rec.repDir = durDir ++ [repDirName rec.replicate] ∧
        rec.srcCsv ∈ pairs.map Prod.snd ∧
        rec.repDir ∈ fs'.dirs ∧
        (∀ n ∈ vecNames, fs'.read (rec.repDir ++ [n ++ ".npy"])
          = fs.read (rec.srcCsv.dropLast ++ [n ++ ".npy"]))) := by
  intro pairs
  induction pairs with
  | nil =>
    intro fs fs' ps log h
    rw [processDurPairs] at h
    simp only [Prod.mk.injEq, Except.ok.injEq] at h
    obtain ⟨rfl, rfl, rfl⟩ := h
    exact ⟨fun x hx => hx, rfl, by simp, fun q hq => absurd rfl hq,
      fun _ => by simp⟩
  | cons rp pairs ih =>
    intro fs fs' ps log h
    rw [processDurPairs] at h
    split at h
    · simp at h
    · next fs1 pth rec0 hpr =>
      split at h
      · simp at h
      · next fs2 ps2 log2 hrest =>
        simp only [Prod.mk.injEq, Except.ok.injEq] at h
        obtain ⟨rfl, rfl, rfl⟩ := h
        obtain ⟨hsrc0, hrd0, hrep0, hdur0, hpth0, hfresh0, hdirs0, hpres0, hleg0⟩ :=
          processReplicate_ok_inv hpr
        obtain ⟨ihdirs, ihlen, ihfresh, ihmod, ihlogc⟩ :=
          ih _ _ _ _ hrest
        have hfs1dirs : fs1.dirs = (durDir ++ [repDirName rp.1]) :: fs.dirs := hdirs0
        have hsub1 : fs.dirs ⊆ fs1.dirs := by
          rw [hfs1dirs]; exact fun x hx => List.mem_cons_of_mem _ hx
        have hmod1 : ∀ q : Path, fs1.read q ≠ fs.read q →
            ∃ n, q = (durDir ++ [repDirName rp.1]) ++ [n] := by
          intro q hq
          by_contra hno
          push_neg at hno
          exact hq (hpres0 q hno)
        refine ⟨fun x hx => ihdirs (hsub1 hx), by simp [ihlen], ?_, ?_, ?_⟩
        · intro rp' hrp'
          rcases List.mem_cons.mp hrp' with rfl | hrp'
          · exact hfresh0
          · intro hx
            exact ihfresh rp' hrp' (hsub1 hx)
        · intro q hq
          by_cases h2 : fs2.read q = fs1.read q
          · rw [h2] at hq
            obtain ⟨n, hn⟩ := hmod1 q hq
            exact ⟨repDirName rp.1, n, hn, hfresh0⟩
          · obtain ⟨a, n, hqe, hfr⟩ := ihmod q h2
            refine ⟨a, n, hqe, fun hx => hfr (hsub1 hx)⟩
        · intro hsrc
          have hsrcrest : ∀ src ∈ pairs.map Prod.snd, ∀ a : String,
              src.dropLast ≠ durDir ++ [a] := by
            intro src hs a
            exact hsrc src (by simpa using Or.inr (by simpa using hs)) a
          have ihlog := ihlogc hsrcrest
          intro rec hrec
          rcases List.mem_cons.mp hrec with rfl | hrec
          · refine ⟨hdur0, hrd0.trans (by rw [hrep0]), ?_, ?_, ?_⟩
            · rw [hsrc0]; simp
            · refine ihdirs ?_
              rw [hrd0, hfs1dirs]
              exact List.mem_cons_self _ _
            · intro n hn
              have hdne : List.dropLast rp.2 ≠ durDir ++ [repDirName rp.1] :=
                hsrc rp.2 (by simp) (repDirName rp.1)
              have hstep := hleg0 hdne n hn
              have hkeep : fs2.read (rec.repDir ++ [n ++ ".npy"])
                  = fs1.read (rec.repDir ++ [n ++ ".npy"]) := by
                by_contra hch
                obtain ⟨a, n', hqe, hfr⟩ := ihmod _ hch
                have h2 := append_singleton_inj hqe
                apply hfr
                rw [← h2.1, hrd0, hfs1dirs]
                exact List.mem_cons_self _ _
              rw [hkeep, hrd0, hstep, hsrc0]
          · obtain ⟨ihd, ihrd, ihsrc, ihmem, ihread⟩ := ihlog rec hrec
            refine ⟨ihd, ihrd, by simpa using Or.inr (by simpa using ihsrc),
              ihmem, ?_⟩
            intro n hn
            rw [ihread n hn]
            by_contra hch
            obtain ⟨n', hqe⟩ := hmod1 _ hch
            have hd1 := append_singleton_inj hqe
            have : rec.srcCsv.dropLast = durDir ++ [repDirName rp.1] := hd1.1
            exact hsrcrest rec.srcCsv ihsrc (repDirName rp.1) this

theorem processDur_ok_inv {svf : SvfFn} {results : Path} {fs : FS} {d : Nat}
    {srcs : List Path} {fs' : FS} {ps : List Path} {log : List DirCall}
    (h : processDur svf results fs d srcs = (fs', .ok (ps, log))) :
    fs.dirs ⊆ fs'.dirs ∧
    ps.length = srcs.length ∧
    results ++ [durDirName d] ∉ fs.dirs ∧
    (∀ r ∈ List.range' 1 srcs.length,
      (results ++ [durDirName d]) ++ [repDirName r] ∉ fs.dirs) ∧
    (∀ q : Path, fs'.read q ≠ fs.read q →
      ∃ a b n, q = ((results ++ [a]) ++ [b]) ++ [n] ∧
        (results ++ [a]) ++ [b] ∉ fs.dirs) ∧
    ((∀ src ∈ srcs, ¬ results <+: src) →
      ∀ rec ∈ log, rec.train_dur = d ∧
      rec.repDir = (results ++ [durDirName d]) ++ [repDirName rec.replicate] ∧
      rec.srcCsv ∈ srcs ∧ rec.repDir ∈ fs'.dirs ∧
      (∀ n ∈ vecNames, fs'.read (rec.repDir ++ [n ++ ".npy"])
        = fs.read (rec.srcCsv.dropLast ++ [n ++ ".npy"]))) := by
  rw [processDur] at h
  split at h
  · simp at h
  · next fs1 hm =>
    have hzipsnd : ∀ src ∈ ((List.range' 1 srcs.length).zip srcs).map Prod.snd,
        src ∈ srcs := by
      intro src hs
      obtain ⟨rp, hrp, hrpe⟩ := List.mem_map.mp hs
      obtain ⟨r', s'⟩ := rp
      exact hrpe ▸ (List.of_mem_zip hrp).2
    obtain ⟨hdirs, hlen, hfresh, hmod, hlogc⟩ :=
      processDurPairs_ok_inv svf d (results ++ [durDirName d]) _ _ _ _ _ h
    have hfs1dirs : fs1.dirs = (results ++ [durDirName d]) :: fs.dirs :=
      by rw [(FS.mkdir_ok hm).2]
    have hfs1files : fs1.files = fs.files := by rw [(FS.mkdir_ok hm).2]
    have hsub1 : fs.dirs ⊆ fs1.dirs := by
      rw [hfs1dirs]; exact fun x hx => List.mem_cons_of_mem _ hx
    have hfst : ((List.range' 1 srcs.length).zip srcs).map Prod.fst =
        List.range' 1 srcs.length :=
      List.map_fst_zip _ _ (by rw [List.length_range'])
    refine ⟨fun x hx => hdirs (hsub1 hx), ?_, (FS.mkdir_ok hm).1, ?_, ?_, ?_⟩
    · rw [hlen, List.length_zip, List.length_range']
      exact Nat.min_self _
    · intro r hr
      rw [← hfst] at hr
      obtain ⟨rp, hrp, hrpe⟩ := List.mem_map.mp hr
      intro hx
      exact hfresh rp hrp (hrpe ▸ hsub1 hx)
    · intro q hq
      have hq1 : fs'.read q ≠ fs1.read q := by
        intro he
        exact hq (he.trans (FS.read_files_eq q hfs1files))
      obtain ⟨a, n, hqe, hfr⟩ := hmod q hq1
      refine ⟨durDirName d, a, n, hqe, fun hx => hfr (hsub1 hx)⟩
    · intro hsrc
      have hsrc' : ∀ src ∈ ((List.range' 1 srcs.length).zip srcs).map Prod.snd,
          ∀ a : String, src.dropLast ≠ (results ++ [durDirName d]) ++ [a] := by
        intro src hs a he
        refine hsrc src (hzipsnd src hs) ?_
        refine List.IsPrefix.trans ?_ (List.dropLast_prefix src)
        rw [he]
        have hp : results <+: results ++ ([durDirName d] ++ [a]) :=
          List.prefix_append _ _
        simp only [← List.append_assoc] at hp
        exact hp
      intro rec hrec
      obtain ⟨h1, h2, h3, h4, h5⟩ := hlogc hsrc' rec hrec
      refine ⟨h1, h2, hzipsnd _ h3, h4, ?_⟩
      intro n hn
      rw [h5 n hn]
      exact FS.read_files_eq _ hfs1files

theorem copyPhase_ok_inv (svf : SvfFn) (results : Path) :
    ∀ (entries : List (Nat × List Path)) (fs fs' : FS)
      (entries' : List (Nat × List Path)) (log : List DirCall),
      copyPhase svf results fs entries = (fs', .ok (entries', log)) →
      fs.dirs ⊆ fs'.dirs ∧
      List.Forall₂ (fun a b : Nat × List Path => a.1 = b.1 ∧ b.2.length = a.2.length)
        entries entries' ∧
      (∀ e ∈ entries, results ++ [durDirName e.1] ∉ fs.dirs ∧
        ∀ r ∈ List.range' 1 e.2.length,
          (results ++ [durDirName e.1]) ++ [repDirName r] ∉ fs.dirs) ∧
      (∀ q : Path, fs'.read q ≠ fs.read q →
        ∃ a b n, q = ((results ++ [a]) ++ [b]) ++ [n] ∧
          (results ++ [a]) ++ [b] ∉ fs.dirs) ∧
      ((∀ e ∈ entries, ∀ src ∈ e.2, ¬ results <+: src) →
        ∀ rec ∈ log,
        rec.repDir = (results ++ [durDirName rec.train_dur])
          ++ [repDirName rec.replicate] ∧
        (∃ e ∈ entries, rec.srcCsv ∈ e.2) ∧ rec.repDir ∈ fs'.dirs ∧
        (∀ n ∈ vecNames, fs'.read (rec.repDir ++ [n ++ ".npy"])
          = fs.read (rec.srcCsv.dropLast ++ [n ++ ".npy"]))) := by
  intro entries
  induction entries with
  | nil =>
    intro fs fs' entries' log h
    rw [copyPhase] at h
    simp only [Prod.mk.injEq, Except.ok.injEq] at h
    obtain ⟨rfl, rfl, rfl⟩ := h
    exact ⟨fun x hx => hx, List.Forall₂.nil, by simp, fun q hq => absurd rfl hq,
      fun _ => by simp⟩
  | cons ent rest ih =>
    intro fs fs' entries' log h
    rw [copyPhase] at h
    split at h
    · simp at h
    · next fs1 ps1 log1 hpd =>
      split at h
      · simp at h
      · next fs2 es2 log2 hrest =>
        simp only [Prod.mk.injEq, Except.ok.injEq] at h
        obtain ⟨rfl, rfl, rfl⟩ := h
        obtain ⟨pddirs, pdlen, pddfresh, pdrfresh, pdmod, pdlogc⟩ :=
          processDur_ok_inv hpd
        obtain ⟨ihdirs, ihfa, ihfresh, ihmod, ihlogc⟩ :=
          ih _ _ _ _ hrest
        have hdursub : fs.dirs ⊆ fs1.dirs := pddirs
        refine ⟨fun x hx => ihdirs (hdursub hx),
          List.Forall₂.cons ⟨rfl, pdlen⟩ ihfa, ?_, ?_, ?_⟩
        · intro e he
          rcases List.mem_cons.mp he with rfl | he
          · exact ⟨pddfresh, pdrfresh⟩
          · obtain ⟨h1, h2⟩ := ihfresh e he
            exact ⟨fun hx => h1 (hdursub hx), fun r hr hx => h2 r hr (hdursub hx)⟩
        · intro q hq
          by_cases h2 : fs2.read q = fs1.read q
          · rw [h2] at hq
            exact pdmod q hq
          · obtain ⟨a, b, n, hqe, hfr⟩ := ihmod q h2
            exact ⟨a, b, n, hqe, fun hx => hfr (hdursub hx)⟩
        · intro hsrcs
          have pdlog := pdlogc (hsrcs ent (List.mem_cons_self _ _))
          have ihlog := ihlogc (fun e he => hsrcs e (List.mem_cons_of_mem _ he))
          intro rec hrec
          rcases List.mem_append.mp hrec with hrec | hrec
          · obtain ⟨h1, h2, h3, h4, h5⟩ := pdlog rec hrec
            refine ⟨by rw [h2, h1], ⟨ent, List.mem_cons_self _ _, h3⟩, ihdirs h4, ?_⟩
            intro n hn
            have hkeep : fs2.read (rec.repDir ++ [n ++ ".npy"])
                = fs1.read (rec.repDir ++ [n ++ ".npy"]) := by
              by_contra hch
              obtain ⟨a, b, n', hqe, hfr⟩ := ihmod _ hch
              have he2 := append_singleton_inj hqe
              apply hfr
              rw [← he2.1]
              exact h4
            rw [hkeep]
            exact h5 n hn
          · obtain ⟨h1, ⟨e, he, hesrc⟩, h3, h4⟩ := ihlog rec hrec
            refine ⟨h1, ⟨e, List.mem_cons_of_mem _ he, hesrc⟩, h3, ?_⟩
            intro n hn
            rw [h4 n hn]
            by_contra hch
            obtain ⟨a, b, n', hqe, hfr⟩ := pdmod _ hch
            have he2 := append_singleton_inj hqe
            have hpref : results <+: rec.srcCsv := by
              refine List.IsPrefix.trans ?_ (List.dropLast_prefix rec.srcCsv)
              rw [he2.1]
              have hp : results <+: results ++ ([a] ++ [b]) := List.prefix_append _ _
              simp only [← List.append_assoc] at hp
              exact hp
            exact hsrcs e (List.mem_cons_of_mem _ he) rec.srcCsv hesrc hpref

/-! ## Helper lemmas: grouping and error kinds -/

theorem groupByDur_cons_nil {m : DDict} {q : Path} {qs : List Path}
    (hfd : findDurs (baseName q) = []) :
    groupByDur m (q :: qs) = .error (.naming q []) := by
  rw [groupByDur]
  simp only [hfd]

theorem groupByDur_cons_many {m : DDict} {q : Path} {qs : List Path}
    {s1 s2 : String} {ss : List String}
    (hfd : findDurs (baseName q) = s1 :: s2 :: ss) :
    groupByDur m (q :: qs) = .error (.naming q (s1 :: s2 :: ss)) := by
  rw [groupByDur]
  simp only [hfd]

theorem groupByDur_cons_badint {m : DDict} {q : Path} {qs : List Path}
    {s : String} (hfd : findDurs (baseName q) = [s]) (hpi : pyInt s = none) :
    groupByDur m (q :: qs) = .error (.intParse s) := by
  rw [groupByDur]
  simp only [hfd, hpi]

theorem groupByDur_cons_one {m : DDict} {q : Path} {qs : List Path}
    {s : String} {t : Nat} (hfd : findDurs (baseName q) = [s])
    (hpi : pyInt s = some t) :
    groupByDur m (q :: qs) = groupByDur (m.getAppend t q) qs := by
  rw [groupByDur]
  simp only [hfd, hpi]

theorem groupByDur_err_naming :
    ∀ (ps : List Path) (m : DDict) (p : Path) (ms : List String),
      groupByDur m ps = .error (.naming p ms) →
      p ∈ ps ∧ findDurs (baseName p) = ms ∧ ms.length ≠ 1 := by
  intro ps
  induction ps with
  | nil =>
    intro m p ms h
    rw [groupByDur] at h
    simp at h
  | cons q qs ih =>
    intro m p ms h
    cases hfd : findDurs (baseName q) with
    | nil =>
      rw [groupByDur_cons_nil hfd] at h
      simp only [Except.error.injEq, Err.naming.injEq] at h
      obtain ⟨rfl, rfl⟩ := h
      exact ⟨List.mem_cons_self _ _, hfd, by simp⟩
    | cons s ss =>
      cases ss with
      | nil =>
        cases hpi : pyInt s with
        | some t =>
          rw [groupByDur_cons_one hfd hpi] at h
          obtain ⟨h1, h2, h3⟩ := ih _ p ms h
          exact ⟨List.mem_cons_of_mem _ h1, h2, h3⟩
        | none =>
          rw [groupByDur_cons_badint hfd hpi] at h
          simp at h
      | cons s2 ss2 =>
        rw [groupByDur_cons_many hfd] at h
        simp only [Except.error.injEq, Err.naming.injEq] at h
        obtain ⟨rfl, rfl⟩ := h
        exact ⟨List.mem_cons_self _ _, hfd, by simp⟩

theorem groupByDur_bad_exists :
    ∀ (ps : List Path) (m : DDict),
      (∀ p ∈ ps, ∀ s, findDurs (baseName p) = [s] → (pyInt s).isSome) →
      (∃ p ∈ ps, (findDurs (baseName p)).length ≠ 1) →
      ∃ q ms, groupByDur m ps = .error (.naming q ms) := by
  intro ps
  induction ps with
  | nil =>
    intro m hint hbad
    simp at hbad
  | cons q qs ih =>
    intro m hint hbad
    cases hfd : findDurs (baseName q) with
    | nil => exact ⟨q, [], groupByDur_cons_nil hfd⟩
    | cons s ss =>
      cases ss with
      | nil =>
        have hs : (pyInt s).isSome := hint q (List.mem_cons_self _ _) s hfd
        cases hpi : pyInt s with
        | none => rw [hpi] at hs; simp at hs
        | some t =>
          have hbad2 : ∃ p ∈ qs, (findDurs (baseName p)).length ≠ 1 := by
            obtain ⟨p, hp, hlen⟩ := hbad
            rcases List.mem_cons.mp hp with rfl | hp
            · rw [hfd] at hlen
              simp at hlen
            · exact ⟨p, hp, hlen⟩
          obtain ⟨q2, ms2, hq2⟩ := ih (m.getAppend t q)
            (fun p hp => hint p (List.mem_cons_of_mem _ hp)) hbad2
          exact ⟨q2, ms2, (groupByDur_cons_one hfd hpi).trans hq2⟩
      | cons s2 ss2 => exact ⟨q, s :: s2 :: ss2, groupByDur_cons_many hfd⟩

theorem groupByDur_srcs :
    ∀ (ps : List Path) (m g : DDict),
      groupByDur m ps = .ok g →
      ∀ e ∈ g.entries, ∀ p ∈ e.2,
        (∃ e0 ∈ m.entries, p ∈ e0.2) ∨ p ∈ ps := by
  intro ps
  induction ps with
  | nil =>
    intro m g h e he p hp
    rw [groupByDur] at h
    injection h with h
    subst h
    exact Or.inl ⟨e, he, hp⟩
  | cons q qs ih =>
    intro m g h e he p hp
    cases hfd : findDurs (baseName q) with
    | nil =>
      rw [groupByDur_cons_nil hfd] at h
      simp at h
    | cons s ss =>
      cases ss with
      | nil =>
        cases hpi : pyInt s with
        | none =>
          rw [groupByDur_cons_badint hfd hpi] at h
          simp at h
        | some t =>
          rw [groupByDur_cons_one hfd hpi] at h
          rcases ih _ _ h e he p hp with ⟨e0, he0, hpe0⟩ | hmem
          · rw [DDict.getAppend] at he0
            split at he0
            · obtain ⟨e1, he1, he1e⟩ := List.mem_map.mp he0
              by_cases h1 : e1.1 = t
              · rw [if_pos h1] at he1e
                rw [← he1e] at hpe0
                simp only [] at hpe0
                rcases List.mem_append.mp hpe0 with hx | hx
                · exact Or.inl ⟨e1, he1, hx⟩
                · simp only [List.mem_singleton] at hx
                  exact Or.inr (hx ▸ List.mem_cons_self _ _)
              · rw [if_neg h1] at he1e
                exact Or.inl ⟨e1, he1, he1e ▸ hpe0⟩
            · rcases List.mem_append.mp he0 with hx | hx
              · exact Or.inl ⟨e0, hx, hpe0⟩
              · simp only [List.mem_singleton] at hx
                rw [hx] at hpe0
                simp only [List.mem_singleton] at hpe0
                exact Or.inr (hpe0 ▸ List.mem_cons_self _ _)
          · exact Or.inr (List.mem_cons_of_mem _ hmem)
      | cons s2 ss2 =>
        rw [groupByDur_cons_many hfd] at h
        simp at h

theorem copyLegacy_err :
    ∀ (ns : List String) (srcDir repDir : Path) (fs fs' : FS) (e : Err),
      copyLegacy srcDir repDir fs ns = (fs', .error e) →
      ∃ p, e = .fileNotFound p := by
  intro ns
  induction ns with
  | nil =>
    intro srcDir repDir fs fs' e h
    rw [copyLegacy] at h
    simp at h
  | cons n ns ih =>
    intro srcDir repDir fs fs' e h
    rw [copyLegacy] at h
    split at h
    · simp only [Prod.mk.injEq, Except.error.injEq] at h
      exact ⟨_, h.2.symm⟩
    · exact ih _ _ _ _ _ h

theorem processReplicate_err {svf : SvfFn} {d : Nat} {durDir : Path} {fs : FS}
    {r : Nat} {src : Path} {fs' : FS} {e : Err}
    (h : processReplicate svf d durDir fs r src = (fs', .error e)) :
    (∃ p, e = .dirExists p) ∨ (∃ p, e = .fileNotFound p) ∨
      (∃ p, e = .notATable p) := by
  rw [processReplicate] at h
  dsimp only [] at h
  split at h
  · next e0 hm =>
    rw [FS.mkdir] at hm
    split at hm
    · simp only [Prod.mk.injEq, Except.error.injEq] at h
      injection hm with hm
      exact Or.inl ⟨_, by rw [← h.2, ← hm]⟩
    · simp at hm
  · next fs1 hm =>
    split at h
    · simp only [Prod.mk.injEq, Except.error.injEq] at h
      exact Or.inr (Or.inl ⟨_, h.2.symm⟩)
    · next c0 hread =>
      split at h
      · next df =>
        split at h
        · next fs4 e0 hcl =>
          simp only [Prod.mk.injEq, Except.error.injEq] at h
          obtain ⟨p, hp⟩ := copyLegacy_err _ _ _ _ _ _ hcl
          exact Or.inr (Or.inl ⟨p, by rw [← h.2, hp]⟩)
        · next fs4 u hcl =>
          simp at h
      · next hne =>
        simp only [Prod.mk.injEq, Except.error.injEq] at h
        exact Or.inr (Or.inr ⟨_, h.2.symm⟩)

theorem processDurPairs_err (svf : SvfFn) (d : Nat) (durDir : Path) :
    ∀ (pairs : List (Nat × Path)) (fs fs' : FS) (e : Err),
      processDurPairs svf d durDir fs pairs = (fs', .error e) →
      (∃ p, e = .dirExists p) ∨ (∃ p, e = .fileNotFound p) ∨
        (∃ p, e = .notATable p) := by
  intro pairs
  induction pairs with
  | nil =>
    intro fs fs' e h
    rw [processDurPairs] at h
    simp at h
  | cons rp pairs ih =>
    intro fs fs' e h
    rw [processDurPairs] at h
    split at h
    · next e0 hpr =>
      simp only [Prod.mk.injEq, Except.error.injEq] at h
      obtain ⟨-, rfl⟩ := h
      exact processReplicate_err hpr
    · next fs1 pth rec0 hpr =>
      split at h
      · next e0 hrest =>
        simp only [Prod.mk.injEq, Except.error.injEq] at h
        obtain ⟨-, rfl⟩ := h
        exact ih _ _ _ hrest
      · simp at h

theorem processDur_err {svf : SvfFn} {results : Path} {fs : FS} {d : Nat}
    {srcs : List Path} {fs' : FS} {e : Err}
    (h : processDur svf results fs d srcs = (fs', .error e)) :
    (∃ p, e = .dirExists p) ∨ (∃ p, e = .fileNotFound p) ∨
      (∃ p, e = .notATable p) := by
  rw [processDur] at h
  split at h
  · next e0 hm =>
    rw [FS.mkdir] at hm
    split at hm
    · simp only [Prod.mk.injEq, Except.error.injEq] at h
      injection hm with hm
      exact Or.inl ⟨_, by rw [← h.2, ← hm]⟩
    · simp at hm
  · next fs1 hm =>
    exact processDurPairs_err _ _ _ _ _ _ _ h

theorem copyPhase_err (svf : SvfFn) (results : Path) :
    ∀ (entries : List (Nat × List Path)) (fs fs' : FS) (e : Err),
      copyPhase svf results fs entries = (fs', .error e) →
      (∃ p, e = .dirExists p) ∨ (∃ p, e = .fileNotFound p) ∨
        (∃ p, e = .notATable p) := by
  intro entries
  induction entries with
  | nil =>
    intro fs fs' e h
    rw [copyPhase] at h
    simp at h
  | cons ent rest ih =>
    intro fs fs' e h
    rw [copyPhase] at h
    split at h
    · next e0 hpd =>
      simp only [Prod.mk.injEq, Except.error.injEq] at h
      obtain ⟨-, rfl⟩ := h
      exact processDur_err hpd
    · next fs1 ps1 log1 hpd =>
      split at h
      · next e0 hrest =>
        simp only [Prod.mk.injEq, Except.error.injEq] at h
        obtain ⟨-, rfl⟩ := h
        exact ih _ _ _ hrest
      · simp at h

theorem forall₂_mem_right {α β : Type} {R : α → β → Prop} :
    ∀ {l₁ : List α} {l₂ : List β}, List.Forall₂ R l₁ l₂ →
      ∀ b ∈ l₂, ∃ a ∈ l₁, R a b := by
  intro l₁ l₂ h
  induction h with
  | nil =>
    intro b hb
    simp at hb
  | cons hr hrest ih =>
    intro b hb
    rcases List.mem_cons.mp hb with rfl | hb
    · exact ⟨_, List.mem_cons_self _ _, hr⟩
    · obtain ⟨a, ha, har⟩ := ih b hb
      exact ⟨a, List.mem_cons_of_mem _ ha, har⟩

theorem forall₂_fst_map {l₁ l₂ : List (Nat × List Path)}
    (h : List.Forall₂
      (fun a b : Nat × List Path => a.1 = b.1 ∧ b.2.length = a.2.length) l₁ l₂) :
    l₂.map Prod.fst = l₁.map Prod.fst := by
  induction h with
  | nil => rfl
  | cons hr hrest ih => simp [ih, hr.1]

theorem from_dir_ok_inv {svf : SvfFn} {prevFiles : List Path} {durs : List Nat}
    {reps : Nat} {results : Path} {fs0 fs' : FS} {m : DDict} {log : List DirCall}
    (h : from_dir svf prevFiles durs reps results fs0 = (fs', .ok (m, log))) :
    ∃ g entries2,
      groupByDur DDict.empty (scanPrev prevFiles) = .ok g ∧
      sortNat g.keys = sortNat durs ∧
      (g.entries.all fun e => e.2.length == reps) = true ∧
      copyPhase svf results fs0 g.entries = (fs', .ok (entries2, log)) ∧
      m = ⟨entries2⟩ := by
  rw [from_dir] at h
  split at h
  · simp at h
  · next g hg =>
    split at h
    · simp at h
    · next hne =>
      split at h
      · simp at h
      · next hall =>
        split at h
        · simp at h
        · next fs2 entries2 log2 hcp =>
          simp only [Prod.mk.injEq, Except.ok.injEq] at h
          obtain ⟨rfl, rfl, rfl⟩ := h
          exact ⟨g, entries2, hg, not_ne_iff.mp hne, not_not.mp hall, hcp, rfl⟩

/-! ## Row and filter helpers -/

theorem split_of_mem_filter {t : String} {l : DataFrame} {r : Row}
    (h : r ∈ l.filter (isSplit t)) : r.split = t := by
  have := (List.mem_filter.mp h).2
  simpa [isSplit] using this

theorem filter_isSplit_ne {t1 t2 : String} (hne : t1 ≠ t2) (l : DataFrame) :
    (l.filter (isSplit t1)).filter (isSplit t2) = [] := by
  rw [List.filter_eq_nil_iff]
  intro r hr
  have h1 : r.split = t1 := split_of_mem_filter hr
  simp only [isSplit, h1, beq_iff_eq]
  exact hne

theorem filter_isSplit_idem (t : String) (l : DataFrame) :
    (l.filter (isSplit t)).filter (isSplit t) = l.filter (isSplit t) := by
  rw [List.filter_filter]
  refine List.filter_congr ?_
  intro r hr
  simp [Bool.and_self]

theorem DDict.find?_mem {m : DDict} {k : Nat} {ps : List Path}
    (h : m.find? k = some ps) : (k, ps) ∈ m.entries := by
  rw [DDict.find?] at h
  cases hf : m.entries.find? (fun e => decide (e.1 = k)) with
  | none => rw [hf] at h; simp at h
  | some e =>
    rw [hf] at h
    have he1 : e.1 = k := by simpa using List.find?_some hf
    have hmem := List.mem_of_find?_eq_some hf
    rw [Option.map_some'] at h
    injection h with h
    have he : e = (k, ps) := by
      cases e
      simp only [Prod.mk.injEq]
      exact ⟨he1, h⟩
    exact he ▸ hmem

/-! ## Claims -/

/-- Claim C2: for every `(duration, replicate)` iteration logged by a
successful `from_df` call, the table written to disk is the concatenation,
in this order, of the duration-`d` train subset rows, then all rows of
the full input table whose split is `val`, then all rows whose split is
`test`; in particular the written table's `val` and `test` rows are
identical to the full table's `val`/`test` rows. -/
theorem c2_written_concat_val_test (splitFn : SplitFn) (svf : SvfFn)
    (dataset_df : DataFrame) (stem : String) (durs : List Nat) (reps : Nat)
    (results : Path) (fs0 fs' : FS) (m : DDict) (calls : List DfCall)
    (h : from_df splitFn svf dataset_df stem durs reps results fs0
      = (fs', .ok (m, calls))) :
    ∀ c ∈ calls,
      c.written = c.subset ++ dataset_df.filter (isSplit "val")
        ++ dataset_df.filter (isSplit "test") ∧
      c.written.filter (isSplit "val") = dataset_df.filter (isSplit "val") ∧
      c.written.filter (isSplit "test") = dataset_df.filter (isSplit "test") := by
  intro c hc
  obtain ⟨h1, h2, h3⟩ := fromDfDurs_ok_calls _ _ _ _ _ _ _ _ _ _ _ _ h c hc
  have hsubval : c.subset.filter (isSplit "val") = [] := by
    rw [h2]
    exact filter_isSplit_ne (by decide) _
  have hsubtest : c.subset.filter (isSplit "test") = [] := by
    rw [h2]
    exact filter_isSplit_ne (by decide) _
  refine ⟨h3, ?_, ?_⟩
  · rw [h3, List.filter_append, List.filter_append, hsubval,
      filter_isSplit_idem, filter_isSplit_ne (by decide)]
    simp
  · rw [h3, List.filter_append, List.filter_append, hsubtest,
      filter_isSplit_idem, filter_isSplit_ne (by decide)]
    simp

/-- Witness for C2: the theorem applied to a concrete successful
`from_df` run. -/
theorem c2_written_concat_val_test_witness :
    dfCallK.written.filter (isSplit "val") = tblK.filter (isSplit "val") :=
  (c2_written_concat_val_test splitId svfK tblK "data" [5] 1 ["res"] fsEmpty
    dfFsK dfMK [dfCallK] (by decide) dfCallK (by decide)).2.1

/-- Claim C3: in `from_df`, for every `(duration, replicate)` iteration,
the sampling input handed to the splitter is the full table restricted to
`split == train`, the table handed to the window-index builder is the
splitter's output filtered back to `split == train`, and consequently
every row of it carries the `train` split tag — no val/test or
sentinel-tagged row reaches the index builder. -/
theorem c3_vectors_from_train_only (splitFn : SplitFn) (svf : SvfFn)
    (dataset_df : DataFrame) (stem : String) (durs : List Nat) (reps : Nat)
    (results : Path) (fs0 fs' : FS) (m : DDict) (calls : List DfCall)
    (h : from_df splitFn svf dataset_df stem durs reps results fs0
      = (fs', .ok (m, calls))) :
    ∀ c ∈ calls,
      c.splitIn = dataset_df.filter (isSplit "train") ∧
      c.subset = (splitFn c.splitIn c.train_dur c.replicate).filter
        (isSplit "train") ∧
      ∀ row ∈ c.subset, row.split = "train" := by
  intro c hc
  obtain ⟨h1, h2, h3⟩ := fromDfDurs_ok_calls _ _ _ _ _ _ _ _ _ _ _ _ h c hc
  refine ⟨h1, h2, ?_⟩
  intro row hrow
  rw [h2] at hrow
  exact split_of_mem_filter hrow

/-- Witness for C3: the theorem applied to a concrete successful
`from_df` run. -/
theorem c3_vectors_from_train_only_witness :
    dfCallK.splitIn = tblK.filter (isSplit "train") :=
  (c3_vectors_from_train_only splitId svfK tblK "data" [5] 1 ["res"] fsEmpty
    dfFsK dfMK [dfCallK] (by decide) dfCallK (by decide)).1

/-! ## Key-set helpers for the two entry points -/

theorem from_df_ok_keys {splitFn : SplitFn} {svf : SvfFn} {df : DataFrame}
    {stem : String} {durs : List Nat} {reps : Nat} {results : Path}
    {fs0 fs' : FS} {m : DDict} {calls : List DfCall}
    (h : from_df splitFn svf df stem durs reps results fs0 = (fs', .ok (m, calls))) :
    (∀ k, k ∈ m.keys ↔ (k ∈ durs ∧ 1 ≤ reps)) ∧
    (∀ k ∈ durs, 1 ≤ reps → ∃ ps, m.find? k = some ps ∧ ps.length = reps) := by
  have hnd := fromDfDurs_ok_nodup _ _ _ _ _ _ _ _ _ _ _ _ h
  have hpre : ∀ x ∈ durs, x ∉ DDict.empty.keys := by
    intro x hx
    simp [DDict.empty, DDict.keys]
  obtain ⟨ine, imem⟩ := fromDfDurs_ok_find? _ _ _ _ _ _ _ _ _ _ _ _ h hnd hpre
  constructor
  · intro k
    constructor
    · intro hk
      rw [← DDict.find?_isSome_iff_mem] at hk
      by_cases hkd : k ∈ durs
      · refine ⟨hkd, ?_⟩
        by_contra hr
        have hz : reps = 0 := by omega
        subst hz
        have hm0 : m = DDict.empty :=
          fromDfDurs_reps_zero _ _ _ _ _ _ _ _ _ _ _ h
        rw [hm0] at hk
        simp [DDict.empty, DDict.find?] at hk
      · rw [ine k hkd] at hk
        simp [DDict.empty, DDict.find?] at hk
    · intro ⟨hkd, hr⟩
      obtain ⟨ps, hlen, hfind⟩ := imem k hkd hr
      rw [← DDict.find?_isSome_iff_mem, hfind]
      rfl
  · intro k hk hr
    obtain ⟨ps, hlen, hfind⟩ := imem k hk hr
    exact ⟨ps, hfind, hlen⟩

theorem from_dir_ok_keys {svf : SvfFn} {prevFiles : List Path} {durs : List Nat}
    {reps : Nat} {results : Path} {fs0 fs' : FS} {m : DDict} {log : List DirCall}
    (h : from_dir svf prevFiles durs reps results fs0 = (fs', .ok (m, log))) :
    (∀ k, k ∈ m.keys ↔ k ∈ durs) ∧
    (∀ k ∈ durs, ∃ ps, m.find? k = some ps ∧ ps.length = reps) := by
  obtain ⟨g, entries2, hg, hsort, hall, hcp, hm⟩ := from_dir_ok_inv h
  obtain ⟨-, hfa, -, -, -⟩ := copyPhase_ok_inv svf results _ _ _ _ _ hcp
  have hkeys : m.keys = g.keys := by
    rw [hm]
    exact forall₂_fst_map hfa
  have hmem : ∀ k : Nat, k ∈ g.keys ↔ k ∈ durs := by
    intro k
    have h1 : (k ∈ sortNat g.keys) ↔ k ∈ g.keys := mem_sortNat
    have h2 : (k ∈ sortNat durs) ↔ k ∈ durs := mem_sortNat
    rw [← h1, hsort, h2]
  constructor
  · intro k
    rw [hkeys]
    exact hmem k
  · intro k hk
    have hkk : k ∈ m.keys := by
      rw [hkeys]
      exact (hmem k).mpr hk
    rw [← DDict.find?_isSome_iff_mem] at hkk
    cases hfind : m.find? k with
    | none => rw [hfind] at hkk; simp at hkk
    | some ps =>
      refine ⟨ps, rfl, ?_⟩
      have hmem2 : (k, ps) ∈ m.entries := DDict.find?_mem hfind
      rw [hm] at hmem2
      obtain ⟨e, he, hfst, hlen⟩ := forall₂_mem_right hfa (k, ps) hmem2
      have hcount := List.all_eq_true.mp hall e he
      have : ps.length = e.2.length := hlen
      rw [this]
      simpa using hcount

/-- Counterexample to claim C1 as stated: with `num_replicates = 0` and
requested durations `[5]`, `from_df` succeeds but returns a mapping whose
key set is empty rather than equal to the requested set `{5}`. -/
theorem c1_result_shape_cex :
    (from_df splitId svfK tblK "data" [5] 0 ["res"] fsEmpty).2
      = .ok (DDict.empty, []) ∧
    DDict.empty.keys = [] ∧ (5 : Nat) ∈ [5] := by decide

/-- Claim C1 (amended): for every successful call of `from_dir`, and for
every successful call of `from_df` with `num_replicates ≥ 1`, the
returned mapping's key set equals the set of requested training-set
durations exactly, and every key's value is a list of exactly
`num_replicates` table-file paths.  (Amendment forced by the
counterexample: with `num_replicates = 0` the `from_df` loop body never
appends, so a successful call returns an empty mapping.) -/
theorem c1_result_shape_amended :
    (∀ (splitFn : SplitFn) (svf : SvfFn) (df : DataFrame) (stem : String)
      (durs : List Nat) (reps : Nat) (results : Path) (fs0 fs' : FS)
      (m : DDict) (calls : List DfCall),
      1 ≤ reps →
      from_df splitFn svf df stem durs reps results fs0 = (fs', .ok (m, calls)) →
      (∀ k, k ∈ m.keys ↔ k ∈ durs) ∧
      (∀ k ∈ durs, ∃ ps, m.find? k = some ps ∧ ps.length = reps)) ∧
    (∀ (svf : SvfFn) (prevFiles : List Path) (durs : List Nat) (reps : Nat)
      (results : Path) (fs0 fs' : FS) (m : DDict) (log : List DirCall),
      from_dir svf prevFiles durs reps results fs0 = (fs', .ok (m, log)) →
      (∀ k, k ∈ m.keys ↔ k ∈ durs) ∧
      (∀ k ∈ durs, ∃ ps, m.find? k = some ps ∧ ps.length = reps)) := by
  constructor
  · intro splitFn svf df stem durs reps results fs0 fs' m calls hreps h
    obtain ⟨hkeys, hvals⟩ := from_df_ok_keys h
    refine ⟨fun k => (hkeys k).trans (by simp [hreps]), fun k hk => hvals k hk hreps⟩
  · intro svf prevFiles durs reps results fs0 fs' m log h
    exact from_dir_ok_keys h

/-- Witness for the amended C1: the key set of a concrete successful
`from_df` run with one duration and one replicate. -/
theorem c1_result_shape_amended_witness :
    (5 : Nat) ∈ dfMK.keys ↔ (5 : Nat) ∈ [5] :=
  (c1_result_shape_amended.1 splitId svfK tblK "data" [5] 1 ["res"] fsEmpty
    dfFsK dfMK [dfCallK] (by decide) (by decide)).1 5

/-- Claim C10: the mapping returned by both `from_df` and `from_dir` is a
`defaultdict(list)`, so indexing it with any duration that was not
requested yields an empty list rather than raising a missing-key error,
and silently inserts that key with an empty list as its value. -/
theorem c10_defaultdict_missing_key :
    (∀ (splitFn : SplitFn) (svf : SvfFn) (df : DataFrame) (stem : String)
      (durs : List Nat) (reps : Nat) (results : Path) (fs0 fs' : FS)
      (m : DDict) (calls : List DfCall) (k : Nat),
      from_df splitFn svf df stem durs reps results fs0 = (fs', .ok (m, calls)) →
      k ∉ durs →
      m.getItem k = ([], ⟨m.entries ++ [(k, [])]⟩)) ∧
    (∀ (svf : SvfFn) (prevFiles : List Path) (durs : List Nat) (reps : Nat)
      (results : Path) (fs0 fs' : FS) (m : DDict) (log : List DirCall) (k : Nat),
      from_dir svf prevFiles durs reps results fs0 = (fs', .ok (m, log)) →
      k ∉ durs →
      m.getItem k = ([], ⟨m.entries ++ [(k, [])]⟩)) := by
  constructor
  · intro splitFn svf df stem durs reps results fs0 fs' m calls k h hk
    obtain ⟨hkeys, -⟩ := from_df_ok_keys h
    refine DDict.getItem_of_not_mem ?_
    intro hmem
    exact hk ((hkeys k).mp hmem).1
  · intro svf prevFiles durs reps results fs0 fs' m log k h hk
    obtain ⟨hkeys, -⟩ := from_dir_ok_keys h
    refine DDict.getItem_of_not_mem ?_
    intro hmem
    exact hk ((hkeys k).mp hmem)

/-- Witness for C10: indexing the mapping of a concrete successful
`from_df` run with the unrequested duration 7 yields `[]` and inserts
the key. -/
theorem c10_defaultdict_missing_key_witness :
    dfMK.getItem 7 = ([], ⟨dfMK.entries ++ [(7, [])]⟩) :=
  c10_defaultdict_missing_key.1 splitId svfK tblK "data" [5] 1 ["res"] fsEmpty
    dfFsK dfMK [dfCallK] 7 (by decide) (by decide)

/-- Claim C6: as soon as the set of durations parsed from the discovered
filenames differs from the requested set (order-independent), or some
duration's discovered file count differs from `num_replicates`,
`from_dir` raises the corresponding fatal error and performs no
filesystem mutation whatsoever — the returned filesystem state is exactly
the initial one, with no directory created and no file copied or written;
all shape validation precedes any copy or write. -/
theorem c6_validate_then_act (svf : SvfFn) (prevFiles : List Path)
    (durs : List Nat) (reps : Nat) (results : Path) (fs0 : FS) (g : DDict)
    (hg : groupByDur DDict.empty (scanPrev prevFiles) = .ok g) :
    (sortNat g.keys ≠ sortNat durs →
      from_dir svf prevFiles durs reps results fs0
        = (fs0, .error (.durMismatch (sortNat durs) (sortNat g.keys)))) ∧
    (sortNat g.keys = sortNat durs →
      (g.entries.all fun e => e.2.length == reps) = false →
      from_dir svf prevFiles durs reps results fs0
        = (fs0, .error .countMismatch)) := by
  constructor
  · intro hne
    simp only [from_dir, hg]
    rw [if_pos hne]
  · intro heq hall
    simp only [from_dir, hg]
    rw [if_neg (not_ne_iff.mpr heq), if_pos (by rw [hall]; simp)]

/-- Witness for C6: a concrete previous run holding one file of duration
5 while durations `[5, 10]` are requested: `from_dir` fails with the
duration-mismatch error and the filesystem is untouched. -/
theorem c6_validate_then_act_witness :
    from_dir svfK prevFilesK [5, 10] 1 ["res"] fsPrev
      = (fsPrev, .error (.durMismatch [5, 10] [5])) :=
  (c6_validate_then_act svfK prevFilesK [5, 10] 1 ["res"] fsPrev
    ⟨[(5, [["prev", "data_prep_train_dur_5s_r1.csv"]])]⟩ (by decide)).1 (by decide)

/-- Claim C8: directory creation never silently merges into an existing
directory, in `from_df` and `from_dir` alike: `Path.mkdir()` raises
`FileExistsError` whenever the directory already exists, and consequently
a successful run of either function implies that none of its per-duration
or per-replicate target directories existed beforehand. -/
theorem c8_mkdir_no_silent_merge :
    (∀ (fs : FS) (p : Path), p ∈ fs.dirs → fs.mkdir p = .error (.dirExists p)) ∧
    (∀ (splitFn : SplitFn) (svf : SvfFn) (df : DataFrame) (stem : String)
      (durs : List Nat) (reps : Nat) (results : Path) (fs0 fs' : FS)
      (m : DDict) (calls : List DfCall),
      from_df splitFn svf df stem durs reps results fs0 = (fs', .ok (m, calls)) →
      ∀ d ∈ durs, results ++ [durDirName d] ∉ fs0.dirs ∧
        ∀ r ∈ List.range' 1 reps,
          results ++ [durDirName d, repDirName r] ∉ fs0.dirs) ∧
    (∀ (svf : SvfFn) (prevFiles : List Path) (durs : List Nat) (reps : Nat)
      (results : Path) (fs0 fs' : FS) (m : DDict) (log : List DirCall)
      (g : DDict),
      from_dir svf prevFiles durs reps results fs0 = (fs', .ok (m, log)) →
      groupByDur DDict.empty (scanPrev prevFiles) = .ok g →
      ∀ e ∈ g.entries, results ++ [durDirName e.1] ∉ fs0.dirs ∧
        ∀ r ∈ List.range' 1 e.2.length,
          (results ++ [durDirName e.1]) ++ [repDirName r] ∉ fs0.dirs) := by
  refine ⟨?_, ?_, ?_⟩
  · intro fs p hp
    rw [FS.mkdir, if_pos hp]
  · intro splitFn svf df stem durs reps results fs0 fs' m calls h d hd
    exact fromDfDurs_ok_fresh _ _ _ _ _ _ _ _ _ _ _ _ h d hd
  · intro svf prevFiles durs reps results fs0 fs' m log g h hg
    obtain ⟨g2, entries2, hg2, -, -, hcp, -⟩ := from_dir_ok_inv h
    rw [hg] at hg2
    injection hg2 with hg2
    subst hg2
    obtain ⟨-, -, hfresh, -, -⟩ := copyPhase_ok_inv svf results _ _ _ _ _ hcp
    exact hfresh

/-- Witness for C8: the mkdir primitive fails on an existing directory,
and a concrete successful `from_df` run implies its target directory was
fresh. -/
theorem c8_mkdir_no_silent_merge_witness :
    (FS.mk [["res"]] []).mkdir ["res"] = .error (.dirExists ["res"]) :=
  c8_mkdir_no_silent_merge.1 ⟨[["res"]], []⟩ ["res"] (by decide)

/-- Claim C9: replicate numbering in `from_dir` is deterministic: the
initial file scan is sorted before grouping, so for any fixed set of
discovered file paths — in whatever order the filesystem enumerates them
— two runs of `from_dir` with the same arguments produce identical
results, assigning the same 1-based replicate index to the same source
file. -/
theorem c9_deterministic_order (svf : SvfFn) (durs : List Nat) (reps : Nat)
    (results : Path) (fs0 : FS) {l1 l2 : List Path} (h : l1.Perm l2) :
    from_dir svf l1 durs reps results fs0 = from_dir svf l2 durs reps results fs0 := by
  unfold from_dir
  rw [scanPrev_eq_of_perm h]

/-- Witness for C9: two enumeration orders of the same concrete
directory tree produce identical `from_dir` results. -/
theorem c9_deterministic_order_witness :
    from_dir svfK prevFilesK [5] 1 ["res"] fsPrev
      = from_dir svfK prevFilesK.reverse [5] 1 ["res"] fsPrev :=
  c9_deterministic_order svfK [5] 1 ["res"] fsPrev (by decide)

/-- Claim C4 (code bug, evaluation): the recovery importer cannot parse
decimal durations.  With the claim's literal filenames
(`foo_train_dur_5.0s_r1.csv`, ...) nothing is even discovered, because
the scan glob is `**/*prep*csv` and the names hold no `prep`, so the
call fails with the shape-mismatch error; with `prep` added to the names
the files are discovered but `int("5.0")` raises `ValueError`
(`pyInt "5.0" = none`), so the call still fails instead of parsing the
decimal as 5 — although the regex `train_dur_(\d+\.\d+|\d+)s`
deliberately matches decimals, giving the group `"5.0"`. -/
theorem c4_decimal_duration_eval :
    (from_dir svfK c4Files [5, 10] 2 ["res"] fsEmpty).2
      = .error (.durMismatch [5, 10] []) ∧
    (from_dir svfK c4PrepFiles [5, 10] 2 ["res"] fsEmpty).2
      = .error (.intParse "5.0") ∧
    findDurs "foo_prep_train_dur_5.0s_r1.csv" = ["5.0"] ∧
    pyInt "5.0" = none ∧ pyInt "10" = some 10 := by decide

/-- Counterexample to claim C5 as stated: on a concrete successful
recovery run, the content that survives on disk under
`spect_id_vector.npy` is the legacy blob copied from beside the source
table, not the recomputed array `.arr [1]` that the window-index builder
stub produced — the legacy copy is written after the recomputed save and
overwrites it. -/
theorem c5_overwrite_cex :
    (from_dir svfK prevFilesK [5] 1 ["res"] fsPrev).2 = .ok (c5M, [c5Rec]) ∧
    FS.read (from_dir svfK prevFilesK [5] 1 ["res"] fsPrev).1
        ["res", "train_dur_5s", "replicate_1", "spect_id_vector.npy"]
      = some (.blob "legacy_sid") ∧
    (svfK tblK 5).1 = [1] ∧
    FS.read (from_dir svfK prevFilesK [5] 1 ["res"] fsPrev).1
        ["res", "train_dur_5s", "replicate_1", "spect_id_vector.npy"]
      ≠ some (.arr (svfK tblK 5).1) := by decide

/-- Claim C5 (amended): in `from_dir`, after the recomputed arrays and
the legacy array files are written into the same replicate directory
under the same three filenames, the LEGACY copies are the ones that
survive on disk for every `(duration, replicate)` pair: the legacy copy
happens after the recomputed save and overwrites it, so the content of
each `<vec>.npy` in the replicate directory equals the initial content
of the file of the same name beside the source table.  (Stated for runs
whose fresh results root is not a prefix of any previous-run path, which
is how the function is used: the results tree is fresh.) -/
theorem c5_overwrite_amended (svf : SvfFn) (prevFiles : List Path)
    (durs : List Nat) (reps : Nat) (results : Path) (fs0 fs' : FS)
    (m : DDict) (log : List DirCall)
    (hdisj : ∀ p ∈ prevFiles, ¬ results <+: p)
    (h : from_dir svf prevFiles durs reps results fs0 = (fs', .ok (m, log))) :
    ∀ rec ∈ log, ∀ n ∈ vecNames,
      fs'.read (rec.repDir ++ [n ++ ".npy"])
        = fs0.read (rec.srcCsv.dropLast ++ [n ++ ".npy"]) := by
  obtain ⟨g, entries2, hg, hsort, hall, hcp, hm⟩ := from_dir_ok_inv h
  obtain ⟨-, -, -, -, hlogc⟩ := copyPhase_ok_inv svf results _ _ _ _ _ hcp
  have hsrcs : ∀ e ∈ g.entries, ∀ src ∈ e.2, ¬ results <+: src := by
    intro e he src hsrc
    rcases groupByDur_srcs _ _ _ hg e he src hsrc with ⟨e0, he0, -⟩ | hmem
    · simp [DDict.empty] at he0
    · have hsc : src ∈ prevFiles := by
        rw [scanPrev] at hmem
        exact (List.mem_filter.mp (mem_sortPaths.mp hmem)).1
      exact hdisj src hsc
  intro rec hrec n hn
  exact (hlogc hsrcs rec hrec).2.2.2 n hn

/-- Witness for the amended C5: on the concrete run of the
counterexample, the surviving `spect_id_vector.npy` equals the legacy
file that sat beside the source table. -/
theorem c5_overwrite_amended_witness :
    FS.read c5Fs ["res", "train_dur_5s", "replicate_1", "spect_id_vector.npy"]
      = FS.read fsPrev ["prev", "spect_id_vector.npy"] :=
  c5_overwrite_amended svfK prevFilesK [5] 1 ["res"] fsPrev c5Fs c5M [c5Rec]
    (by decide) (by decide) c5Rec (by decide) "spect_id_vector" (by decide)

/-- Counterexample to claim C7 as stated: the file
`weird_train_dur_5s_train_dur_10s.csv` does contain two occurrences of
the duration pattern, but its name does not match the scan glob
`**/*prep*csv` (no `prep`), so it is never discovered: `from_dir` raises
the shape-mismatch error, not the naming-ambiguity error the claim
asserts. -/
theorem c7_naming_error_cex :
    (findDurs (baseName c7File)).length = 2 ∧
    from_dir svfK [c7File] [5, 10] 1 ["res"] fsEmpty
      = (fsEmpty, .error (.durMismatch [5, 10] [])) := by decide

/-- Claim C7 (amended): `from_dir` raises the fatal naming-ambiguity
error, naming the offending file, exactly for the discovered files —
those whose name matches the `*prep*csv` glob: (i) whenever the error
`naming p ms` is raised, `p` is a discovered file whose name yields the
matches `ms` with `ms.length ≠ 1`; (ii) conversely, if some discovered
filename yields zero or more than one matches, the naming error is
raised — provided every discovered filename's unique match also parses
as an integer (otherwise the `int()` `ValueError` on an
earlier-sorted file can preempt the naming error).  The claim's example
file must be named e.g. `weird_prep_train_dur_5s_train_dur_10s.csv` to
be discovered at all. -/
theorem c7_naming_error_amended (svf : SvfFn) (prevFiles : List Path)
    (durs : List Nat) (reps : Nat) (results : Path) (fs0 : FS) :
    (∀ (fs' : FS) (p : Path) (ms : List String),
      from_dir svf prevFiles durs reps results fs0 = (fs', .error (.naming p ms)) →
      p ∈ scanPrev prevFiles ∧ findDurs (baseName p) = ms ∧ ms.length ≠ 1) ∧
    ((∀ p ∈ scanPrev prevFiles, ∀ s, findDurs (baseName p) = [s] →
        (pyInt s).isSome) →
      (∃ p ∈ scanPrev prevFiles, (findDurs (baseName p)).length ≠ 1) →
      ∃ q ms, from_dir svf prevFiles durs reps results fs0
        = (fs0, .error (.naming q ms))) := by
  constructor
  · intro fs' p ms h
    rw [from_dir] at h
    split at h
    · next e hg =>
      simp only [Prod.mk.injEq, Except.error.injEq] at h
      obtain ⟨-, rfl⟩ := h
      exact groupByDur_err_naming _ _ _ _ hg
    · next g hg =>
      split at h
      · simp at h
      · split at h
        · simp at h
        · split at h
          · next fs2 e hcp =>
            simp only [Prod.mk.injEq, Except.error.injEq] at h
            obtain ⟨-, rfl⟩ := h
            rcases copyPhase_err svf results _ _ _ _ hcp with
              ⟨p2, hp⟩ | ⟨p2, hp⟩ | ⟨p2, hp⟩ <;> simp at hp
          · simp at h
  · intro hint hbad
    obtain ⟨q, ms, hq⟩ :=
      groupByDur_bad_exists (scanPrev prevFiles) DDict.empty hint hbad
    refine ⟨q, ms, ?_⟩
    simp only [from_dir, hq]

/-- Witness for the amended C7: the backward direction applied to a
concrete run over the `prep`-named two-duration file, which does raise
the naming error. -/
theorem c7_naming_error_amended_witness :
    c7PrepFile ∈ scanPrev [c7PrepFile] ∧
      findDurs (baseName c7PrepFile) = ["5", "10"] ∧
      (["5", "10"] : List String).length ≠ 1 :=
  (c7_naming_error_amended svfK [c7PrepFile] [5, 10] 1 ["res"] fsEmpty).1
    fsEmpty c7PrepFile ["5", "10"] (by decide)

end Vak
